import Mathlib

/-!
# BGQNCL network-counter profiler (`src/profiler.c`)

A shallow embedding of the three entry points of the profiler,
`PROFILER_INIT`, `PROFILER_PCONTROL` and `PROFILER_FINALIZE`, and of the
process-global variables they share.

Conventions of the embedding.

* The C globals are the fields of `Profiler`.  C arrays are total maps from
  the index.  An index past the end of `values` reaches the memory behind the
  table: the map keeps it at that index, apart from the other globals, and the
  call goes on, as the compiled code does.  An access past the end of
  `counters[60]`, which would fall on the neighbouring fields of the table, an
  index below the table, or a failed `assert` makes the operation return
  `none`.
* `unsigned int` values are naturals and `int` values are integers, at most
  `INT_MAX` where a theorem needs it; `int` addition wraps to 32 bits as in the
  compiled code, the conversion to `unsigned int` is taken modulo `2 ^ 32`,
  `uint64_t` arithmetic modulo `2 ^ 64`, and `double` clock values are exact
  rationals.
* Calls into MPI, the torus service and BGPM are external.  What they return
  is supplied by an environment record (`InitEnv`, `CallEnv`, `FinEnv`); how
  often the clock and the counter hardware were used is recorded in three
  bookkeeping fields of `Profiler`.
-/

namespace BGQNCL

/-! ## Constants and tables of `profiler.c` -/

/-- Capacity of the region table: `#define NUM_REGIONS 100`. -/
def NUM_REGIONS : Nat := 100

/-- Number of torus link directions: `#define NUM_TORUS_LINKS 10`. -/
def NUM_TORUS_LINKS : Nat := 10

/-- The distinguished coordinate on the last torus axis: `#define ROOT_RANK 0`. -/
def ROOT_RANK : Int := 0

/-- Length of the array `uint64_t counters[60]` inside `Counters`. -/
def COUNTERS_LEN : Nat := 60

/-- Modulus of `uint64_t` arithmetic. -/
def U64 : Nat := 2 ^ 64

/-- Modulus of the `int` to `unsigned int` conversion. -/
def U32 : Int := 2 ^ 32

/-- The largest value of the 32-bit type `int`. -/
def INT_MAX : Int := 2147483647

/-- The value of the 32-bit type `int` that an addition yields: the exact
result reduced to the range `-2 ^ 31 .. 2 ^ 31 - 1` modulo `2 ^ 32`. -/
def wrapInt (x : Int) : Int :=
  (x + 2147483648) % 4294967296 - 2147483648

/-- The BGPM enumeration of torus link directions used by `linkmask[]`. -/
inductive UPC_NW_LinkMasks where
  | UPC_NW_LINK_A_MINUS
  | UPC_NW_LINK_A_PLUS
  | UPC_NW_LINK_B_MINUS
  | UPC_NW_LINK_B_PLUS
  | UPC_NW_LINK_C_MINUS
  | UPC_NW_LINK_C_PLUS
  | UPC_NW_LINK_D_MINUS
  | UPC_NW_LINK_D_PLUS
  | UPC_NW_LINK_E_MINUS
  | UPC_NW_LINK_E_PLUS
  deriving DecidableEq, Repr

open UPC_NW_LinkMasks in
/-- The table `UPC_NW_LinkMasks linkmask[]` (lines 36-45). -/
def linkmaskTable : List UPC_NW_LinkMasks :=
  [UPC_NW_LINK_A_MINUS, UPC_NW_LINK_A_PLUS, UPC_NW_LINK_B_MINUS, UPC_NW_LINK_B_PLUS,
   UPC_NW_LINK_C_MINUS, UPC_NW_LINK_C_PLUS, UPC_NW_LINK_D_MINUS, UPC_NW_LINK_D_PLUS,
   UPC_NW_LINK_E_MINUS, UPC_NW_LINK_E_PLUS]

/-- The array read `linkmask[i]`; the loops of the source only use
`i < NUM_TORUS_LINKS`. -/
def linkmask (i : Nat) : UPC_NW_LinkMasks :=
  linkmaskTable.getD i UPC_NW_LinkMasks.UPC_NW_LINK_E_PLUS

/-! ## Data model -/

/-- The record type `Counters` (lines 47-50): `uint64_t counters[60]; double time;`. -/
@[ext]
structure Counters where
  counters : Nat → Nat
  time : ℚ

/-- The process-global variables of `profiler.c` (lines 31-34 and 52), followed
by three bookkeeping counters that record the use of the external clock and
counter hardware. -/
@[ext]
structure Profiler where
  myrank : Int
  numranks : Int
  isZero : Int
  isMaster : Int
  masterRank : Int
  curset : Nat
  hNWSet : Nat
  maxset : Nat
  numevents : Nat
  values : Nat → Counters
  /-- number of `MPI_Wtime()` calls made so far -/
  wtimeCalls : Nat
  /-- number of `Bgpm_NW_ReadLinkEvent` calls made so far -/
  linkReads : Nat
  /-- number of `Bgpm_ResetStart` calls made so far -/
  resetStarts : Nat

/-- The globals at program start: objects of static storage duration are
zero-initialised. -/
def globals0 : Profiler where
  myrank := 0
  numranks := 0
  isZero := 0
  isMaster := 0
  masterRank := 0
  curset := 0
  hNWSet := 0
  maxset := 0
  numevents := 0
  values := fun _ => { counters := fun _ => 0, time := 0 }
  wtimeCalls := 0
  linkReads := 0
  resetStarts := 0

/-- The loop `for (unsigned int i = start; i < start + n; i++) body`, with `n`
the number of iterations left; an iteration that fails ends the loop. -/
def forLoop {σ : Type} (body : Nat → σ → Option σ) : Nat → Nat → σ → Option σ
  | 0, _, s => some s
  | n + 1, i, s => (body i s).bind (forLoop body n (i + 1))

/-! ## `PROFILER_INIT` -/

/-- What the external services answer during `PROFILER_INIT`. -/
structure InitEnv where
  /-- result of `MPI_Comm_rank(MPI_COMM_WORLD, &myrank)` -/
  worldRank : Int
  /-- result of `MPI_Comm_size(MPI_COMM_WORLD, &numranks)` -/
  worldSize : Int
  /-- result of `MPIX_Rank2torus(myrank, coords)` -/
  coords : Nat → Int
  /-- result of `MPIX_Torus2rank(coords, &tmasterRank)` for the all-zero coordinate -/
  tmasterRank : Int
  /-- result of `MPI_Comm_rank(profile_comm, &masterRank)` -/
  profileRank : Int
  /-- the value `MPI_Bcast` delivers on a process that is not the root of the broadcast -/
  bcastValue : Int
  /-- result of `Bgpm_CreateEventSet()` -/
  eventSet : Nat
  /-- return code of `Bgpm_Attach` -/
  attachRc : Int

/-- Lines 62-69: the master test.  The four `int` additions of line 62 are
taken left to right, each with its 32-bit result. -/
def initIsMaster (coords : Nat → Int) : Int :=
  if wrapInt (wrapInt (wrapInt (wrapInt (coords 0 + coords 1) + coords 2) + coords 3) + coords 4)
      = 0 ∧ coords 5 = ROOT_RANK then 1 else 0

/-- Line 92: `isZero = (coords[5] == ROOT_RANK) ? 1 : 0`. -/
def initIsZero (coords : Nat → Int) : Int :=
  if coords 5 = ROOT_RANK then 1 else 0

/-- Line 140: `values[i].counters[j] = 0`. -/
def zeroCounter (i j : Nat) (v : Nat → Counters) : Option (Nat → Counters) :=
  if j < COUNTERS_LEN then
    some (Function.update v i { counters := Function.update (v i).counters j 0, time := (v i).time })
  else none

/-- Line 142: `values[i].time = 0`. -/
def zeroTime (i : Nat) (v : Nat → Counters) : Option (Nat → Counters) :=
  some (Function.update v i { counters := (v i).counters, time := 0 })

/-- Lines 138-143: the zeroing loops over the region table. -/
def zeroValues (numevents : Nat) (v : Nat → Counters) : Option (Nat → Counters) :=
  forLoop (fun i v =>
      (forLoop (fun j v => zeroCounter i j v) (NUM_TORUS_LINKS * numevents) 0 v).bind
        (zeroTime i))
    NUM_REGIONS 0 v

/-- The entry point `PROFILER_INIT()` (lines 54-150).  The output sink and the
communicator handle are not part of the state: the report is modelled by the
lines `PROFILER_FINALIZE` writes, the sub-group by `FinEnv`.  `Bgpm_Init`,
`Bgpm_AddEvent` and `Bgpm_Attach` leave the globals alone; a failed attach
only prints a message. -/
def PROFILER_INIT (env : InitEnv) (g : Profiler) : Option Profiler :=
  let g := { g with myrank := env.worldRank, numranks := env.worldSize }
  let g := { g with isMaster := initIsMaster env.coords }
  let g := { g with isZero := initIsZero env.coords }
  let g := if g.isMaster ≠ 0 then { g with masterRank := env.profileRank } else g
  -- MPI_Bcast(&masterRank, 1, MPI_INT, tmasterRank, MPI_COMM_WORLD)
  let g := if g.myrank = env.tmasterRank then g else { g with masterRank := env.bcastValue }
  if g.isZero ≠ 0 then
    let g := { g with hNWSet := env.eventSet, numevents := 1 }
    let g := { g with curset := 0, maxset := 0 }
    (zeroValues g.numevents g.values).map fun v => { g with values := v }
  else some g

/-! ## `PROFILER_PCONTROL` -/

/-- What the external services answer during one `PROFILER_PCONTROL` call. -/
structure CallEnv where
  /-- the value of `MPI_Wtime()` at line 163, when the outgoing region is left -/
  wtimeLeave : ℚ
  /-- the value of `MPI_Wtime()` at line 177, when the incoming region is entered -/
  wtimeEnter : ℚ
  /-- result of `Bgpm_NumEvents(hNWSet)` -/
  numEvts : Nat
  /-- the value `Bgpm_NW_ReadLinkEvent(hNWSet, j, mask, &val)` stores in `val` -/
  readLink : Nat → UPC_NW_LinkMasks → Nat

/-- The `uint64_t` that `Bgpm_NW_ReadLinkEvent` returns for metric `j` on link `i`. -/
def CallEnv.val (env : CallEnv) (j i : Nat) : Nat :=
  env.readLink j (linkmask i) % U64

/-- Lines 170-171: one read and `values[curset].counters[cnt++] += val`. -/
def readLinkEvent (env : CallEnv) (i j : Nat) (st : Profiler × Nat) : Option (Profiler × Nat) :=
  let s := st.1
  let cnt := st.2
  let val := env.val j i
  if cnt < COUNTERS_LEN then
    let c := s.values s.curset
    some ({ s with
            values := Function.update s.values s.curset
              { counters := Function.update c.counters cnt ((c.counters cnt + val) % U64),
                time := c.time },
            linkReads := s.linkReads + 1 },
          cnt + 1)
  else none

/-- Lines 162-174: leaving region `curset`.  For `curset >= NUM_REGIONS` the
updates land behind the table. -/
def leaveRegion (env : CallEnv) (s : Profiler) : Option Profiler :=
  let c := s.values s.curset
  let s := { s with
             values := Function.update s.values s.curset
               { counters := c.counters, time := c.time + env.wtimeLeave },
             wtimeCalls := s.wtimeCalls + 1 }
  -- assert(numEvts == numevents)
  if env.numEvts = s.numevents then
    (forLoop (fun i st => forLoop (fun j st => readLinkEvent env i j st) st.1.numevents 0 st)
      NUM_TORUS_LINKS 0 (s, 0)).map Prod.fst
  else none

/-- Lines 175-178: entering region `ctrl`.  For `ctrl >= NUM_REGIONS` the
write of line 177 lands behind the table. -/
def enterRegion (env : CallEnv) (ctrl : Int) (s : Profiler) : Option Profiler :=
  let s := { s with resetStarts := s.resetStarts + 1 }
  if 0 ≤ ctrl then
    let c := s.values ctrl.toNat
    some { s with
           values := Function.update s.values ctrl.toNat
             { counters := c.counters, time := c.time - env.wtimeEnter },
           wtimeCalls := s.wtimeCalls + 1 }
  else none

/-- The entry point `PROFILER_PCONTROL(int ctrl)` (lines 152-183). -/
def PROFILER_PCONTROL (env : CallEnv) (ctrl : Int) (s : Profiler) : Option Profiler :=
  if s.isZero ≠ 0 then
    if ctrl = 0 ∧ s.curset = 0 then some s
    else
      (if s.curset ≠ 0 then leaveRegion env s else some s).bind fun s =>
      (if ctrl ≠ 0 then enterRegion env ctrl s else some s).bind fun s =>
      let s := { s with curset := (ctrl % U32).toNat }
      some (if s.curset > s.maxset then { s with maxset := (ctrl % U32).toNat } else s)
  else some s

/-- A sequence of `PROFILER_PCONTROL` calls, each with the answers of the
external services during that call. -/
def runPcontrol : List (Int × CallEnv) → Profiler → Option Profiler
  | [], s => some s
  | (ctrl, env) :: rest, s => (PROFILER_PCONTROL env ctrl s).bind (runPcontrol rest)

/-! ## `PROFILER_FINALIZE` -/

/-- One item that `fprintf` writes to the report. -/
inductive Tok where
  /-- a value written with the format `%d` -/
  | int (v : Int)
  /-- the marker written by the format text `**` -/
  | sep
  /-- a value written with the format `%lu` -/
  | u64 (v : Nat)
  deriving DecidableEq, Repr

/-- What `PROFILER_FINALIZE` has written: the finished lines of `dataFile`, the
line in progress, and the timing summaries printed to standard output, each
as region id, min, avg, max. -/
structure Output where
  lines : List (List Tok)
  cur : List Tok
  summaries : List (Nat × ℚ × ℚ × ℚ)

/-- One formatted item appended to the line in progress. -/
def Output.put (o : Output) (t : Tok) : Output :=
  { o with cur := o.cur ++ [t] }

/-- The call `fprintf(dataFile,"\n")`: the line in progress is finished. -/
def Output.newline (o : Output) : Output :=
  { o with lines := o.lines ++ [o.cur], cur := [] }

/-- What the external services answer during `PROFILER_FINALIZE`. -/
structure FinEnv where
  /-- the members of `profile_comm` in rank order, each with the globals it holds
  when it takes part in the gathers; `MPI_Comm_size(profile_comm)` is the length -/
  roots : List Profiler
  /-- result of `MPI_Group_translate_ranks` from `profile_comm` to `MPI_COMM_WORLD` -/
  translate : Int → Int
  /-- result of `MPIX_Rank2torus(rank, coords)` -/
  rank2torus : Int → Nat → Int

/-- The send buffer of the first `MPI_Gather` (lines 200-202): the first
`NUM_TORUS_LINKS * numevents` entries of `values[i].counters`. -/
def sendCounters (p : Profiler) (i : Nat) : List Nat :=
  (List.range (NUM_TORUS_LINKS * p.numevents)).map (p.values i).counters

/-- The receive buffer of `MPI_Gather` at the root of the gather: the send
buffers of the members, concatenated in rank order. -/
def MPI_Gather {α : Type} (sendbufs : List (List α)) : List α :=
  sendbufs.flatten

/-- Line 228: `fprintf(dataFile,"%lu ", allCounters[cnt++])`. -/
def printCounter (allCounters : List Nat) (_k : Nat) (st : Output × Nat) :
    Option (Output × Nat) :=
  some (st.1.put (Tok.u64 (allCounters.getD st.2 0)), st.2 + 1)

/-- Lines 223-230: the report line of sub-group rank `j` for region `i`. -/
def printRow (env : FinEnv) (s : Profiler) (i : Nat) (world_ranks : List Int)
    (allCounters : List Nat) (j : Nat) (st : Output × Nat) : Option (Output × Nat) :=
  let w := world_ranks.getD j 0
  let coords := env.rank2torus w
  let o := (st.1.put (Tok.int i)).put (Tok.int w)
  let o := ((((((o.put (Tok.int (coords 0))).put (Tok.int (coords 1))).put
    (Tok.int (coords 2))).put (Tok.int (coords 3))).put (Tok.int (coords 4))).put
    (Tok.int (coords 5))).put Tok.sep
  (forLoop (printCounter allCounters) (NUM_TORUS_LINKS * s.numevents) 0 (o, st.2)).map
    fun st => (st.1.newline, st.2)

/-- Lines 235-241: one round of the min/avg/max loop; the state is
`(min, max, avg)`. -/
def timingStep (times : List ℚ) (j : Nat) (st : ℚ × ℚ × ℚ) : Option (ℚ × ℚ × ℚ) :=
  let avg := st.2.2 + times.getD j 0
  let min := if st.1 > times.getD j 0 then times.getD j 0 else st.1
  let max := if st.2.1 < times.getD j 0 then times.getD j 0 else st.2.1
  some (min, max, avg)

/-- Lines 232-243: the numbers of the timing summary, as `(min, avg, max)`. -/
def timingSummary (times : List ℚ) (nranks : Nat) : Option (ℚ × ℚ × ℚ) :=
  (forLoop (timingStep times) nranks 0 (times.getD 0 0, times.getD 0 0, 0)).map
    fun st => (st.1, st.2.2 / nranks, st.2.1)

/-- What one `PROFILER_FINALIZE` call has done so far: the globals, the records
this process has contributed to the gathers (region id, counter vector, time),
and the output written. -/
structure Finalized where
  state : Profiler
  sent : List (Nat × List Nat × ℚ)
  out : Output

/-- Lines 199-246: the body of the region loop for region `i`.  For
`i >= NUM_REGIONS` the send buffers are read from behind the table. -/
def finalizeRegion (env : FinEnv) (s : Profiler) (i : Nat) (st : Finalized) :
    Option Finalized :=
  let allCounters := MPI_Gather (env.roots.map fun p => sendCounters p i)
  let times := MPI_Gather (env.roots.map fun p => [(p.values i).time])
  let st := { st with sent := st.sent ++ [(i, sendCounters s i, (s.values i).time)] }
  if s.isMaster ≠ 0 then
    let nranks := env.roots.length
    (forLoop (fun j (l : List Int) => some (l ++ [(j : Int)])) nranks 0 []).bind
      fun profile_ranks =>
    let world_ranks := profile_ranks.map env.translate
    (forLoop (printRow env s i world_ranks allCounters) nranks 0 (st.out, 0)).bind
      fun r =>
    (timingSummary times nranks).map fun t =>
      { st with out := { r.1 with summaries := r.1.summaries ++ [(i, t.1, t.2.1, t.2.2)] } }
  else some st

/-- The entry point `PROFILER_FINALIZE()` (lines 185-258).  The buffers are
allocated with `NUM_TORUS_LINKS * numevents * nranks` and `nranks` entries and
every read of the loops stays inside them. -/
def PROFILER_FINALIZE (env : FinEnv) (s : Profiler) : Option Finalized :=
  let st : Finalized := { state := s, sent := [], out := { lines := [], cur := [], summaries := [] } }
  if s.isZero ≠ 0 then forLoop (finalizeRegion env s) s.maxset 1 st
  else some st

/-! ## The reference notions of the specification -/

/-- A dwell in progress: the active region and the clock reading taken when it
was entered. -/
abbrev OpenDwell := Option (Int × ℚ)

/-- The dwell in progress after a call with region id `c`: none after
`switchRegion(0)`, else region `c`, entered at the reading of that call. -/
def openAfter (c : Int) (e : CallEnv) : OpenDwell :=
  if c = 0 then none else some (c, e.wtimeEnter)

/-- The finished dwells of a call sequence, as (region, reading at entry,
reading at exit): every call ends the dwell in progress, if there is one, at
its exit reading. -/
def closedDwells : OpenDwell → List (Int × CallEnv) → List (Int × ℚ × ℚ)
  | _, [] => []
  | none, (c, e) :: rest => closedDwells (openAfter c e) rest
  | some (r, t0), (c, e) :: rest => (r, t0, e.wtimeLeave) :: closedDwells (openAfter c e) rest

/-- The dwell still in progress after a call sequence. -/
def finalOpen : OpenDwell → List (Int × CallEnv) → OpenDwell
  | o, [] => o
  | _, (c, e) :: rest => finalOpen (openAfter c e) rest

/-- The summed wall-clock durations of the dwells of a list that are in region `r`. -/
def durationIn (r : Int) (ds : List (Int × ℚ × ℚ)) : ℚ :=
  ((ds.filter fun d => d.1 = r).map fun d => d.2.2 - d.2.1).sum

/-- The summed wall-clock durations of all finished dwells in region `r` of a
call sequence that starts with no region active. -/
def dwellTime (r : Int) (trace : List (Int × CallEnv)) : ℚ :=
  durationIn r (closedDwells none trace)

/-- The values `Bgpm_NW_ReadLinkEvent` returned for metric `j` on link `i` at
each call that left region `r`, where `cur` is the region active before the
first call; a call leaves `r` when `r` is the active region and not 0. -/
def readsLeaving (r : Int) (j i : Nat) : Int → List (Int × CallEnv) → List Nat
  | _, [] => []
  | cur, (c, e) :: rest =>
    (if cur = r ∧ r ≠ 0 then [e.val j i] else []) ++ readsLeaving r j i c rest

/-- The state in which the counters of the current region have been replaced
by `f` after `k` further link reads. -/
def withCounters (s : Profiler) (f : Nat → Nat) (k : Nat) : Profiler :=
  { s with
    values := Function.update s.values s.curset
      { counters := f, time := (s.values s.curset).time },
    linkReads := s.linkReads + k }

/-- The counters of a region after one complete read of all links has been
added to `old`: index `c` receives metric `c % ne` of link `c / ne`. -/
def countersAfterRead (env : CallEnv) (ne : Nat) (old : Nat → Nat) : Nat → Nat :=
  fun c => if c < NUM_TORUS_LINKS * ne
    then (old c + env.val (c % ne) (c / ne)) % U64 else old c

/-- Closed form of the state after lines 162-174. -/
def afterLeave (env : CallEnv) (s : Profiler) : Profiler :=
  { s with
    values := Function.update s.values s.curset
      { counters := countersAfterRead env s.numevents (s.values s.curset).counters,
        time := (s.values s.curset).time + env.wtimeLeave },
    wtimeCalls := s.wtimeCalls + 1,
    linkReads := s.linkReads + NUM_TORUS_LINKS * s.numevents }

/-- Closed form of the state after lines 175-178. -/
def afterEnter (env : CallEnv) (r : Nat) (s : Profiler) : Profiler :=
  { s with
    values := Function.update s.values r
      { counters := (s.values r).counters, time := (s.values r).time - env.wtimeEnter },
    wtimeCalls := s.wtimeCalls + 1,
    resetStarts := s.resetStarts + 1 }

/-- Closed form of one call `PROFILER_PCONTROL(n)` on a topology root. -/
def stepRoot (env : CallEnv) (n : Nat) (s : Profiler) : Profiler :=
  if n = 0 ∧ s.curset = 0 then s
  else
    let s1 := if s.curset ≠ 0 then afterLeave env s else s
    let s2 := if n ≠ 0 then afterEnter env n s1 else s1
    { s2 with curset := n, maxset := max s2.maxset n }

/-- Closed form of a sequence of calls on a topology root. -/
def runSteps : List (Int × CallEnv) → Profiler → Profiler
  | [], s => s
  | (c, e) :: rest, s => runSteps rest (stepRoot e c.toNat s)

/-- The bounds a topology root keeps: role flag set and counter vector inside
`counters[60]`. -/
def RootInv (s : Profiler) : Prop :=
  s.isZero ≠ 0 ∧ NUM_TORUS_LINKS * s.numevents ≤ COUNTERS_LEN

/-- Every call of the sequence passes a non-negative `int` and finds the
counter set reporting `ne` metrics. -/
def InRange (ne : Nat) (trace : List (Int × CallEnv)) : Prop :=
  ∀ c ∈ trace, 0 ≤ c.1 ∧ c.1 ≤ INT_MAX ∧ c.2.numEvts = ne

/-- The entry reading of the dwell in progress if it is in region `r`, else 0. -/
def openStart (r : Int) : OpenDwell → ℚ
  | none => 0
  | some (r', t0) => if r' = r then t0 else 0

/-- The dwell in progress matches the current region of the state. -/
def Linked (s : Profiler) : OpenDwell → Prop
  | none => s.curset = 0
  | some (r', _) => r' = (s.curset : Int) ∧ s.curset ≠ 0

/-- The variables that only the last lines of `PROFILER_PCONTROL` assign are
the same in both states. -/
def SameCtl (s t : Profiler) : Prop :=
  t.isZero = s.isZero ∧ t.isMaster = s.isMaster ∧ t.numevents = s.numevents ∧
    t.curset = s.curset ∧ t.maxset = s.maxset

/-- The buffer `allCounters` after the gather for region `i`. -/
def gatheredCounters (env : FinEnv) (i : Nat) : List Nat :=
  MPI_Gather (env.roots.map fun p => sendCounters p i)

/-- The buffer `times` after the gather for region `i`. -/
def gatheredTimes (env : FinEnv) (i : Nat) : List ℚ :=
  MPI_Gather (env.roots.map fun p => [(p.values i).time])

/-- The items up to the marker of the report line for region `i` and world
rank `w`. -/
def rowHead (env : FinEnv) (i : Nat) (w : Int) : List Tok :=
  [Tok.int i, Tok.int w, Tok.int (env.rank2torus w 0), Tok.int (env.rank2torus w 1),
   Tok.int (env.rank2torus w 2), Tok.int (env.rank2torus w 3), Tok.int (env.rank2torus w 4),
   Tok.int (env.rank2torus w 5), Tok.sep]

/-- The report line for region `i` and sub-group rank `j`: region id, world
rank, the six coordinates, the marker, then the entries
`j * n .. (j + 1) * n - 1` of the gathered buffer, with
`n = NUM_TORUS_LINKS * numevents`. -/
def reportRow (env : FinEnv) (s : Profiler) (i j : Nat) : List Tok :=
  rowHead env i (env.translate (j : Int)) ++
    (List.range (NUM_TORUS_LINKS * s.numevents)).map fun k =>
      Tok.u64 ((gatheredCounters env i).getD (j * (NUM_TORUS_LINKS * s.numevents) + k) 0)

/-- The numbers `(min, avg, max)` of the timing summary of region `i`. -/
def summaryOf (env : FinEnv) (i : Nat) : ℚ × ℚ × ℚ :=
  (timingSummary (gatheredTimes env i) env.roots.length).getD (0, 0, 0)

/-- The record a process contributes to the gathers for region `i`. -/
def sentOf (s : Profiler) (i : Nat) : Nat × List Nat × ℚ :=
  (i, sendCounters s i, (s.values i).time)

/-- The report lines a process writes for region `i`: on the master one line
per sub-group rank in rank order, elsewhere none. -/
def rowsOf (env : FinEnv) (s : Profiler) (i : Nat) : List (List Tok) :=
  if s.isMaster ≠ 0 then (List.range env.roots.length).map (reportRow env s i) else []

/-- The timing summaries a process prints for region `i`. -/
def summariesOf (env : FinEnv) (s : Profiler) (i : Nat) : List (Nat × ℚ × ℚ × ℚ) :=
  if s.isMaster ≠ 0 then [(i, (summaryOf env i).1, (summaryOf env i).2.1, (summaryOf env i).2.2)]
  else []

/-- The answers `PROFILER_INIT` gets on the process at the all-zero coordinate. -/
def masterEnv : InitEnv where
  worldRank := 0
  worldSize := 4
  coords := fun _ => 0
  tmasterRank := 0
  profileRank := 0
  bcastValue := 0
  eventSet := 0
  attachRc := 0

/-- The answers `PROFILER_INIT` gets on a process with coordinate 1 on the last axis. -/
def ordinaryEnv : InitEnv where
  worldRank := 1
  worldSize := 4
  coords := fun k => if k = 5 then 1 else 0
  tmasterRank := 0
  profileRank := 0
  bcastValue := 0
  eventSet := 0
  attachRc := 0

/-- A call during which the clock shows `tLeave` at line 163 and `tEnter` at
line 177, the counter set reports one metric and every link reads `v`. -/
def callEnv (tLeave tEnter : ℚ) (v : Nat) : CallEnv where
  wtimeLeave := tLeave
  wtimeEnter := tEnter
  numEvts := 1
  readLink := fun _ _ => v

/-- The calls `PCONTROL(1)`, `PCONTROL(2)`, `PCONTROL(1)`, `PCONTROL(0)`. -/
def sampleTrace : List (Int × CallEnv) :=
  [(1, callEnv 10 11 0), (2, callEnv 15 16 5), (1, callEnv 20 21 7), (0, callEnv 30 31 9)]

/-- A topology root that accumulated `v` on link 0 and `t` seconds in region 1. -/
def sampleRoot (v : Nat) (t : ℚ) : Profiler :=
  { globals0 with
    isZero := 1
    numevents := 1
    maxset := 1
    values := fun r =>
      if r = 1 then { counters := fun c => if c = 0 then v else 0, time := t }
      else { counters := fun _ => 0, time := 0 } }

/-- A sub-group of two topology roots, with world ranks 0 and 2, the world
rank being the first torus coordinate. -/
def sampleFin : FinEnv where
  roots := [sampleRoot 5 3, sampleRoot 9 4]
  translate := fun j => 2 * j
  rank2torus := fun w k => if k = 0 then w else 0

/-! # Lemmas -/

/-! ## Loops -/

/-- Invariant rule for `forLoop`: a loop whose body succeeds and re-establishes
the invariant on the indices it visits succeeds and ends in the invariant. -/
theorem forLoop_invariant {σ : Type} (body : Nat → σ → Option σ) (P : Nat → σ → Prop) :
    ∀ (n i : Nat) (s : σ), P i s →
      (∀ k t, i ≤ k → k < i + n → P k t → ∃ t', body k t = some t' ∧ P (k + 1) t') →
      ∃ t, forLoop body n i s = some t ∧ P (i + n) t := by
  intro n
  induction n with
  | zero =>
    intro i s h0 _
    exact ⟨s, rfl, by simpa using h0⟩
  | succ n ih =>
    intro i s h0 hstep
    obtain ⟨t1, hb, hP1⟩ := hstep i s (le_refl i) (by omega) h0
    obtain ⟨t, ht, hP⟩ := ih (i + 1) t1 hP1
      (fun k t hk hlt hPk => hstep k t (by omega) (by omega) hPk)
    refine ⟨t, ?_, ?_⟩
    · simp [forLoop, hb, ht]
    · have : i + (n + 1) = i + 1 + n := by omega
      rw [this]
      exact hP

/-! ## The state `PROFILER_INIT` leaves -/

/-- The inner zeroing loop of row `i` clears `counters[0 .. m)` of that row
and touches no other row. -/
theorem zeroRow_spec (i m : Nat) (v : Nat → Counters) (hm : m ≤ COUNTERS_LEN) :
    ∃ v', forLoop (fun j v => zeroCounter i j v) m 0 v = some v' ∧
      (∀ r, r ≠ i → v' r = v r) ∧ (∀ c, c < m → (v' i).counters c = 0) := by
  obtain ⟨t, ht, hP⟩ := forLoop_invariant (fun j v => zeroCounter i j v)
    (fun j w => (∀ r, r ≠ i → w r = v r) ∧ (∀ c, c < j → (w i).counters c = 0))
    m 0 v ⟨fun _ _ => rfl, fun c hc => absurd hc (Nat.not_lt_zero c)⟩
    (by
      intro k t _ hk hPk
      have hk60 : k < COUNTERS_LEN := by omega
      refine ⟨Function.update t i
          { counters := Function.update (t i).counters k 0, time := (t i).time },
        by simp [zeroCounter, hk60], ?_, ?_⟩
      · intro r hr
        rw [Function.update_noteq hr]
        exact hPk.1 r hr
      · intro c hc
        simp only [Function.update_same]
        by_cases hck : c = k
        · subst hck; simp
        · rw [Function.update_noteq hck]
          exact hPk.2 c (by omega))
  exact ⟨t, ht, hP.1, fun c hc => hP.2 c (by simpa using hc)⟩

/-- The zeroing loops of `PROFILER_INIT` succeed and clear the time and the
first `NUM_TORUS_LINKS * numevents` counters of every region. -/
theorem zeroValues_spec (ne : Nat) (v : Nat → Counters)
    (hne : NUM_TORUS_LINKS * ne ≤ COUNTERS_LEN) :
    ∃ v', zeroValues ne v = some v' ∧
      ∀ r, r < NUM_REGIONS →
        (v' r).time = 0 ∧ ∀ c, c < NUM_TORUS_LINKS * ne → (v' r).counters c = 0 := by
  obtain ⟨t, ht, hP⟩ := forLoop_invariant
    (fun i v => (forLoop (fun j v => zeroCounter i j v) (NUM_TORUS_LINKS * ne) 0 v).bind
      (zeroTime i))
    (fun i w => ∀ r, r < i →
      (w r).time = 0 ∧ ∀ c, c < NUM_TORUS_LINKS * ne → (w r).counters c = 0)
    NUM_REGIONS 0 v (fun r hr => absurd hr (Nat.not_lt_zero r))
    (by
      intro k t _ hk hPk
      obtain ⟨v1, hv1, hother, hrow⟩ := zeroRow_spec k (NUM_TORUS_LINKS * ne) t hne
      refine ⟨Function.update v1 k { counters := (v1 k).counters, time := 0 },
        by simp [hv1, zeroTime], ?_⟩
      intro r hr
      by_cases hrk : r = k
      · subst hrk
        simp only [Function.update_same]
        exact ⟨trivial, hrow⟩
      · rw [Function.update_noteq hrk, hother r hrk]
        exact hPk r (by omega))
  exact ⟨t, ht, fun r hr => hP r (by simpa using hr)⟩

/-- On a process on the root plane `PROFILER_INIT` succeeds; it leaves the
role flag set, one configured metric, no active region, and a cleared table. -/
theorem PROFILER_INIT_root (env : InitEnv) (g : Profiler) (h5 : env.coords 5 = ROOT_RANK) :
    ∃ s, PROFILER_INIT env g = some s ∧ s.isZero = 1 ∧ s.isMaster = initIsMaster env.coords ∧
      s.numevents = 1 ∧ s.curset = 0 ∧ s.maxset = 0 ∧
      s.wtimeCalls = g.wtimeCalls ∧ s.linkReads = g.linkReads ∧ s.resetStarts = g.resetStarts ∧
      ∀ r, r < NUM_REGIONS →
        (s.values r).time = 0 ∧ ∀ c, c < NUM_TORUS_LINKS → (s.values r).counters c = 0 := by
  obtain ⟨v', hv', hz⟩ := zeroValues_spec 1 g.values (by decide)
  have hz' : ∀ r, r < NUM_REGIONS →
      (v' r).time = 0 ∧ ∀ c, c < NUM_TORUS_LINKS → (v' r).counters c = 0 := by
    intro r hr
    refine ⟨(hz r hr).1, fun c hc => (hz r hr).2 c (by simpa using hc)⟩
  by_cases hm : initIsMaster env.coords = 0 <;> by_cases hb : env.worldRank = env.tmasterRank <;>
    simp [PROFILER_INIT, initIsZero, h5, hm, hb, hv'] <;> exact hz'

/-- On a process off the root plane `PROFILER_INIT` leaves the region table,
the region variables and the bookkeeping counters as they were. -/
theorem PROFILER_INIT_nonroot (env : InitEnv) (g : Profiler) (h5 : env.coords 5 ≠ ROOT_RANK) :
    ∃ s, PROFILER_INIT env g = some s ∧ s.isZero = 0 ∧ s.isMaster = 0 ∧
      s.values = g.values ∧ s.curset = g.curset ∧ s.maxset = g.maxset ∧
      s.wtimeCalls = g.wtimeCalls ∧ s.linkReads = g.linkReads ∧
      s.resetStarts = g.resetStarts := by
  by_cases hb : env.worldRank = env.tmasterRank <;>
    simp [PROFILER_INIT, initIsZero, initIsMaster, h5, hb]

/-! ## Leaving a region -/

theorem withCounters_withCounters (s : Profiler) (f g : Nat → Nat) (k m : Nat) :
    withCounters (withCounters s f k) g m = withCounters s g (k + m) := by
  simp [withCounters, Function.update_idem, Nat.add_assoc]

theorem withCounters_cur_counters (s : Profiler) (f : Nat → Nat) (k : Nat) :
    ((withCounters s f k).values (withCounters s f k).curset).counters = f := by
  simp [withCounters]

/-- The inner read loop for link `i`: `n` reads starting at metric `j0` add
into `counters[cnt0 .. cnt0 + n)`. -/
theorem readInner_spec (env : CallEnv) (i : Nat) :
    ∀ (n j0 cnt0 : Nat) (s : Profiler), cnt0 + n ≤ COUNTERS_LEN →
      forLoop (fun j st => readLinkEvent env i j st) n j0 (s, cnt0) =
        some (withCounters s
          (fun c => if cnt0 ≤ c ∧ c < cnt0 + n
            then ((s.values s.curset).counters c + env.val (j0 + (c - cnt0)) i) % U64
            else (s.values s.curset).counters c) n, cnt0 + n) := by
  intro n
  induction n with
  | zero =>
    intro j0 cnt0 s _
    have : ∀ c, ¬ (cnt0 ≤ c ∧ c < cnt0) := fun c h => by omega
    simp [forLoop, withCounters, this]
  | succ n ih =>
    intro j0 cnt0 s hc
    have hc60 : cnt0 < COUNTERS_LEN := by omega
    have hstep : readLinkEvent env i j0 (s, cnt0) =
        some (withCounters s (Function.update (s.values s.curset).counters cnt0
          (((s.values s.curset).counters cnt0 + env.val j0 i) % U64)) 1, cnt0 + 1) := by
      simp [readLinkEvent, withCounters, hc60]
    simp only [forLoop, hstep, Option.some_bind]
    rw [ih (j0 + 1) (cnt0 + 1) _ (by omega), withCounters_withCounters]
    simp only [withCounters_cur_counters, Option.some.injEq, Prod.mk.injEq]
    refine ⟨?_, by omega⟩
    have hn : 1 + n = n + 1 := by omega
    rw [hn]
    congr 1
    funext c
    by_cases h1 : c = cnt0
    · subst h1
      have : ¬ (c + 1 ≤ c) := by omega
      simp [this]
    · rw [Function.update_noteq h1]
      by_cases h2 : cnt0 + 1 ≤ c ∧ c < cnt0 + 1 + n
      · have h3 : cnt0 ≤ c ∧ c < cnt0 + (n + 1) := by omega
        have h4 : j0 + 1 + (c - (cnt0 + 1)) = j0 + (c - cnt0) := by omega
        simp [h2, h3, h4]
      · have h3 : ¬ (cnt0 ≤ c ∧ c < cnt0 + (n + 1)) := by omega
        simp [h2, h3]

theorem withCounters_numevents (s : Profiler) (f : Nat → Nat) (k : Nat) :
    (withCounters s f k).numevents = s.numevents := rfl

theorem withCounters_curset (s : Profiler) (f : Nat → Nat) (k : Nat) :
    (withCounters s f k).curset = s.curset := rfl

/-- An index of the block of link `i` decomposes into link and metric. -/
theorem block_div_mod (ne i c : Nat) (h1 : i * ne ≤ c) (h2 : c < i * ne + ne) :
    c / ne = i ∧ c % ne = c - i * ne := by
  have hdiv : c / ne = i :=
    Nat.div_eq_of_lt_le h1 (by rw [Nat.succ_mul]; exact h2)
  refine ⟨hdiv, ?_⟩
  have := Nat.div_add_mod c ne
  rw [hdiv, Nat.mul_comm] at this
  omega

/-- The nested read loops: `m` links starting at link `i0` add into
`counters[i0 * numevents .. (i0 + m) * numevents)`, the entry at index `c`
receiving metric `c % numevents` of link `c / numevents`. -/
theorem readOuter_spec (env : CallEnv) :
    ∀ (m i0 : Nat) (s : Profiler),
      (i0 + m) * s.numevents ≤ COUNTERS_LEN →
      forLoop (fun i st => forLoop (fun j st => readLinkEvent env i j st) st.1.numevents 0 st)
          m i0 (s, i0 * s.numevents) =
        some (withCounters s
          (fun c => if i0 * s.numevents ≤ c ∧ c < (i0 + m) * s.numevents
            then ((s.values s.curset).counters c +
              env.val (c % s.numevents) (c / s.numevents)) % U64
            else (s.values s.curset).counters c) (m * s.numevents),
          (i0 + m) * s.numevents) := by
  intro m
  induction m with
  | zero =>
    intro i0 s _
    have : ∀ c, ¬ (i0 * s.numevents ≤ c ∧ c < i0 * s.numevents) := fun c h => by omega
    simp [forLoop, withCounters, this]
  | succ m ih =>
    intro i0 s hc
    have e1 : (i0 + (m + 1)) * s.numevents = i0 * s.numevents + s.numevents + m * s.numevents := by
      ring
    have e2 : (i0 + 1 + m) * s.numevents = i0 * s.numevents + s.numevents + m * s.numevents := by
      ring
    have e3 : (i0 + 1) * s.numevents = i0 * s.numevents + s.numevents := by ring
    have e4 : (m + 1) * s.numevents = s.numevents + m * s.numevents := by ring
    have hin := readInner_spec env i0 s.numevents 0 (i0 * s.numevents) s (by omega)
    simp only [forLoop]
    rw [hin, Option.some_bind]
    have hih := ih (i0 + 1) (withCounters s
          (fun c => if i0 * s.numevents ≤ c ∧ c < i0 * s.numevents + s.numevents
            then ((s.values s.curset).counters c + env.val (0 + (c - i0 * s.numevents)) i0) % U64
            else (s.values s.curset).counters c) s.numevents)
          (by rw [withCounters_numevents]; omega)
    rw [withCounters_numevents, e3] at hih
    rw [hih, withCounters_withCounters]
    simp only [withCounters_cur_counters, Option.some.injEq, Prod.mk.injEq]
    refine ⟨?_, by omega⟩
    rw [e4]
    congr 1
    funext c
    by_cases h1 : i0 * s.numevents ≤ c ∧ c < i0 * s.numevents + s.numevents
    · obtain ⟨hd, hm⟩ := block_div_mod s.numevents i0 c h1.1 h1.2
      have h2 : ¬ (i0 * s.numevents + s.numevents ≤ c ∧ c < (i0 + 1 + m) * s.numevents) := by
        omega
      have h3 : i0 * s.numevents ≤ c ∧ c < (i0 + (m + 1)) * s.numevents := by omega
      rw [if_neg h2, if_pos h3, if_pos h1, hd, hm, Nat.zero_add]
    · by_cases h2 : i0 * s.numevents + s.numevents ≤ c ∧ c < (i0 + 1 + m) * s.numevents
      · have h3 : i0 * s.numevents ≤ c ∧ c < (i0 + (m + 1)) * s.numevents := by omega
        rw [if_pos h2, if_pos h3, if_neg h1]
      · have h3 : ¬ (i0 * s.numevents ≤ c ∧ c < (i0 + (m + 1)) * s.numevents) := by omega
        rw [if_neg h2, if_neg h3, if_neg h1]

/-- Leaving a region succeeds when the counter set reports the configured
number of metrics and the counter vector fits into `counters[60]`. -/
theorem leaveRegion_spec (env : CallEnv) (s : Profiler)
    (hn : env.numEvts = s.numevents) (hc : NUM_TORUS_LINKS * s.numevents ≤ COUNTERS_LEN) :
    leaveRegion env s = some (afterLeave env s) := by
  have h := readOuter_spec env NUM_TORUS_LINKS 0
    { s with
      values := Function.update s.values s.curset
        { counters := (s.values s.curset).counters,
          time := (s.values s.curset).time + env.wtimeLeave },
      wtimeCalls := s.wtimeCalls + 1 } (by simpa using hc)
  simp only [Nat.zero_mul, Nat.zero_add] at h
  simp only [leaveRegion, hn, if_true]
  rw [h]
  simp only [Option.map_some', Option.some.injEq, withCounters, afterLeave,
    Function.update_same, Function.update_idem]
  have hf : (fun c => if 0 ≤ c ∧ c < NUM_TORUS_LINKS * s.numevents
        then ((s.values s.curset).counters c + env.val (c % s.numevents) (c / s.numevents)) % U64
        else (s.values s.curset).counters c) =
      countersAfterRead env s.numevents (s.values s.curset).counters := by
    funext c
    simp [countersAfterRead]
  rw [hf]

/-- Entering a region with a non-negative id succeeds. -/
theorem enterRegion_spec (env : CallEnv) (ctrl : Int) (s : Profiler) (h0 : 0 ≤ ctrl) :
    enterRegion env ctrl s = some (afterEnter env ctrl.toNat s) := by
  simp [enterRegion, afterEnter, h0]

/-! ## One `PROFILER_PCONTROL` call on a topology root -/

theorem toNat_emod_U32 (n : Nat) (hn : (n : Int) ≤ INT_MAX) : ((n : Int) % U32).toNat = n := by
  have h : (n : Int) % U32 = n := by
    apply Int.emod_eq_of_lt (by omega)
    simp only [INT_MAX] at hn
    simp only [U32]
    omega
  rw [h]
  simp

/-- On a topology root a call with a non-negative `int` succeeds and yields
`stepRoot` when the `assert` holds. -/
theorem PROFILER_PCONTROL_root (env : CallEnv) (n : Nat) (s : Profiler) (hz : s.isZero ≠ 0)
    (hc : NUM_TORUS_LINKS * s.numevents ≤ COUNTERS_LEN)
    (hn : (n : Int) ≤ INT_MAX) (ha : s.curset ≠ 0 → env.numEvts = s.numevents) :
    PROFILER_PCONTROL env (n : Int) s = some (stepRoot env n s) := by
  have hcast : ((n : Int) = 0) ↔ n = 0 := by omega
  have hnn : (0 : Int) ≤ n := by omega
  by_cases h0 : n = 0 ∧ s.curset = 0
  · simp [PROFILER_PCONTROL, stepRoot, hz, h0]
  · have h0' : ¬ ((n : Int) = 0 ∧ s.curset = 0) := by rw [hcast]; exact h0
    simp only [PROFILER_PCONTROL, stepRoot, hz, h0, h0', ne_eq, not_false_eq_true, if_true,
      if_false, toNat_emod_U32 n hn, hcast]
    by_cases hcur : s.curset = 0
    · have hn0 : ¬ n = 0 := fun h => h0 ⟨h, hcur⟩
      simp only [hcur, hn0, not_true_eq_false, not_false_eq_true, if_true, if_false,
        Option.some_bind]
      rw [enterRegion_spec env n s hnn]
      simp only [Option.some_bind, Int.toNat_ofNat, gt_iff_lt, Option.some.injEq]
      split_ifs with h
      · rw [max_eq_right (le_of_lt h)]
      · rw [max_eq_left (not_lt.mp h)]
    · simp only [hcur, not_false_eq_true, if_true]
      rw [leaveRegion_spec env s (ha hcur) hc]
      by_cases hn0 : n = 0
      · simp only [hn0, not_true_eq_false, if_false, Option.some_bind, gt_iff_lt,
          Option.some.injEq]
        split_ifs with h
        · rw [max_eq_right (le_of_lt h)]
        · rw [max_eq_left (not_lt.mp h)]
      · simp only [hn0, not_false_eq_true, if_true, Option.some_bind]
        rw [enterRegion_spec env n _ hnn]
        simp only [Option.some_bind, Int.toNat_ofNat, gt_iff_lt, Option.some.injEq]
        split_ifs with h
        · rw [max_eq_right (le_of_lt h)]
        · rw [max_eq_left (not_lt.mp h)]

theorem stepRoot_isZero (env : CallEnv) (n : Nat) (s : Profiler) :
    (stepRoot env n s).isZero = s.isZero := by
  unfold stepRoot afterLeave afterEnter
  split_ifs <;> rfl

theorem stepRoot_isMaster (env : CallEnv) (n : Nat) (s : Profiler) :
    (stepRoot env n s).isMaster = s.isMaster := by
  unfold stepRoot afterLeave afterEnter
  split_ifs <;> rfl

theorem stepRoot_numevents (env : CallEnv) (n : Nat) (s : Profiler) :
    (stepRoot env n s).numevents = s.numevents := by
  unfold stepRoot afterLeave afterEnter
  split_ifs <;> rfl

theorem stepRoot_curset (env : CallEnv) (n : Nat) (s : Profiler) :
    (stepRoot env n s).curset = n := by
  unfold stepRoot afterLeave afterEnter
  split_ifs with h <;> first | rfl | (simp [h.1, h.2])

theorem stepRoot_maxset (env : CallEnv) (n : Nat) (s : Profiler) :
    (stepRoot env n s).maxset = max s.maxset n := by
  unfold stepRoot afterLeave afterEnter
  split_ifs with h <;> first | rfl | (simp [h.1])

theorem afterLeave_time (env : CallEnv) (s : Profiler) (r : Nat) :
    ((afterLeave env s).values r).time =
      (s.values r).time + (if r = s.curset then env.wtimeLeave else 0) := by
  by_cases h : r = s.curset
  · subst h; simp [afterLeave]
  · simp [afterLeave, Function.update_noteq h, h]

theorem afterEnter_time (env : CallEnv) (n : Nat) (s : Profiler) (r : Nat) :
    ((afterEnter env n s).values r).time =
      (s.values r).time - (if r = n then env.wtimeEnter else 0) := by
  by_cases h : r = n
  · subst h; simp [afterEnter]
  · simp [afterEnter, Function.update_noteq h, h]

theorem afterLeave_counters (env : CallEnv) (s : Profiler) (r : Nat) :
    ((afterLeave env s).values r).counters =
      if r = s.curset then countersAfterRead env s.numevents (s.values r).counters
      else (s.values r).counters := by
  by_cases h : r = s.curset
  · subst h; simp [afterLeave]
  · simp [afterLeave, Function.update_noteq h, h]

theorem afterEnter_counters (env : CallEnv) (n : Nat) (s : Profiler) (r : Nat) :
    ((afterEnter env n s).values r).counters = (s.values r).counters := by
  by_cases h : r = n
  · subst h; simp [afterEnter]
  · simp [afterEnter, Function.update_noteq h]

/-- The elapsed-time accumulator after one call: the reading at line 163 is
added to the region that is left, the reading at line 177 subtracted from the
region that is entered. -/
theorem stepRoot_time (env : CallEnv) (n : Nat) (s : Profiler) (r : Nat) :
    ((stepRoot env n s).values r).time =
      (s.values r).time + (if s.curset = r ∧ r ≠ 0 then env.wtimeLeave else 0)
        - (if n = r ∧ r ≠ 0 then env.wtimeEnter else 0) := by
  have c1 : (s.curset = r ∧ r ≠ 0) ↔ (r = s.curset ∧ s.curset ≠ 0) := by
    constructor <;> rintro ⟨a, b⟩ <;> subst a <;> exact ⟨rfl, b⟩
  have c2 : (n = r ∧ r ≠ 0) ↔ (r = n ∧ n ≠ 0) := by
    constructor <;> rintro ⟨a, b⟩ <;> subst a <;> exact ⟨rfl, b⟩
  simp only [c1, c2]
  unfold stepRoot
  by_cases hn : n = 0 <;> by_cases hcur : s.curset = 0 <;> by_cases h1 : r = s.curset <;>
    by_cases h2 : r = n <;>
    simp [hn, hcur, h1, h2, afterLeave_time, afterEnter_time]

/-- The counter vector after one call: only the region that is left changes,
by one complete read of all links. -/
theorem stepRoot_counters (env : CallEnv) (n : Nat) (s : Profiler) (r : Nat) :
    ((stepRoot env n s).values r).counters =
      if s.curset = r ∧ r ≠ 0 then countersAfterRead env s.numevents (s.values r).counters
      else (s.values r).counters := by
  have c1 : (s.curset = r ∧ r ≠ 0) ↔ (r = s.curset ∧ s.curset ≠ 0) := by
    constructor <;> rintro ⟨a, b⟩ <;> subst a <;> exact ⟨rfl, b⟩
  simp only [c1]
  unfold stepRoot
  by_cases hn : n = 0 <;> by_cases hcur : s.curset = 0 <;> by_cases h1 : r = s.curset <;>
    simp [hn, hcur, h1, afterLeave_counters, afterEnter_counters]

/-! ## Sequences of calls on a topology root -/

theorem stepRoot_RootInv (env : CallEnv) (n : Nat) (s : Profiler) (h : RootInv s) :
    RootInv (stepRoot env n s) := by
  refine ⟨?_, ?_⟩
  · rw [stepRoot_isZero]; exact h.1
  · rw [stepRoot_numevents]; exact h.2

/-- On a topology root a sequence of calls with non-negative `int` region ids
returns when the `assert` holds, and its result is the closed form `runSteps`. -/
theorem runPcontrol_root :
    ∀ (trace : List (Int × CallEnv)) (s : Profiler), RootInv s → InRange s.numevents trace →
      runPcontrol trace s = some (runSteps trace s) := by
  intro trace
  induction trace with
  | nil => intro s _ _; rfl
  | cons c rest ih =>
    intro s hs hr
    obtain ⟨c, e⟩ := c
    obtain ⟨h0, h1, h2⟩ := hr (c, e) (List.mem_cons_self _ _)
    obtain ⟨n, rfl⟩ := Int.eq_ofNat_of_zero_le h0
    simp only [runPcontrol, runSteps, Int.toNat_ofNat]
    rw [PROFILER_PCONTROL_root e n s hs.1 hs.2 h1 (fun _ => h2), Option.some_bind]
    apply ih _ (stepRoot_RootInv e n s hs)
    rw [stepRoot_numevents]
    exact fun c hc => hr c (List.mem_cons_of_mem _ hc)

theorem runSteps_numevents :
    ∀ (trace : List (Int × CallEnv)) (s : Profiler), (runSteps trace s).numevents = s.numevents := by
  intro trace
  induction trace with
  | nil => intro s; rfl
  | cons c rest ih =>
    intro s
    obtain ⟨c, e⟩ := c
    simp only [runSteps]
    rw [ih, stepRoot_numevents]

theorem runSteps_isZero :
    ∀ (trace : List (Int × CallEnv)) (s : Profiler), (runSteps trace s).isZero = s.isZero := by
  intro trace
  induction trace with
  | nil => intro s; rfl
  | cons c rest ih =>
    intro s
    obtain ⟨c, e⟩ := c
    simp only [runSteps]
    rw [ih, stepRoot_isZero]

theorem runSteps_isMaster :
    ∀ (trace : List (Int × CallEnv)) (s : Profiler), (runSteps trace s).isMaster = s.isMaster := by
  intro trace
  induction trace with
  | nil => intro s; rfl
  | cons c rest ih =>
    intro s
    obtain ⟨c, e⟩ := c
    simp only [runSteps]
    rw [ih, stepRoot_isMaster]

/-- The current region after a sequence of calls is the dwell in progress of
the reference model. -/
theorem runSteps_linked :
    ∀ (trace : List (Int × CallEnv)) (s : Profiler) (o : OpenDwell), Linked s o →
      (∀ c ∈ trace, 0 ≤ c.1) → Linked (runSteps trace s) (finalOpen o trace) := by
  intro trace
  induction trace with
  | nil => intro s o h _; exact h
  | cons c rest ih =>
    intro s o _ h
    obtain ⟨c, e⟩ := c
    have h0 : 0 ≤ c := h (c, e) (List.mem_cons_self _ _)
    obtain ⟨n, rfl⟩ := Int.eq_ofNat_of_zero_le h0
    simp only [runSteps, finalOpen, Int.toNat_ofNat]
    apply ih _ _ _ (fun c hc => h c (List.mem_cons_of_mem _ hc))
    by_cases hn : n = 0
    · subst hn
      simp [openAfter, Linked, stepRoot_curset]
    · have : ¬ ((n : Int) = 0) := by omega
      simp [openAfter, Linked, stepRoot_curset, hn, this]

theorem durationIn_cons (r : Int) (d : Int × ℚ × ℚ) (ds : List (Int × ℚ × ℚ)) :
    durationIn r (d :: ds) = (if d.1 = r then d.2.2 - d.2.1 else 0) + durationIn r ds := by
  by_cases h : d.1 = r <;> simp [durationIn, List.filter_cons, h]

theorem openStart_openAfter (r n : Nat) (e : CallEnv) :
    openStart (r : Int) (openAfter (n : Int) e) =
      if n = r ∧ r ≠ 0 then e.wtimeEnter else 0 := by
  by_cases hn : n = 0
  · subst hn
    have : ¬ (0 = r ∧ r ≠ 0) := fun h => h.2 h.1.symm
    simp [openAfter, openStart, this]
  · have hn' : ¬ ((n : Int) = 0) := by omega
    by_cases hr : n = r
    · subst hr
      simp [openAfter, openStart, hn, hn']
    · have hr' : ¬ ((n : Int) = (r : Int)) := by omega
      simp [openAfter, openStart, hn', hr, hr']

/-- The accounting identity behind the elapsed-time accumulator: at any moment
`values[r].time`, plus the entry reading of a dwell in progress in `r`, is the
sum of the durations of the finished dwells in `r`. -/
theorem runSteps_time :
    ∀ (trace : List (Int × CallEnv)) (s : Profiler) (o : OpenDwell), Linked s o →
      (∀ c ∈ trace, 0 ≤ c.1) → ∀ r : Nat,
      ((runSteps trace s).values r).time + openStart (r : Int) (finalOpen o trace) =
        (s.values r).time + openStart (r : Int) o +
          durationIn (r : Int) (closedDwells o trace) := by
  intro trace
  induction trace with
  | nil =>
    intro s o _ _ r
    simp [runSteps, finalOpen, closedDwells, durationIn]
  | cons c rest ih =>
    intro s o hl h r
    obtain ⟨c, e⟩ := c
    have h0 : 0 ≤ c := h (c, e) (List.mem_cons_self _ _)
    obtain ⟨n, rfl⟩ := Int.eq_ofNat_of_zero_le h0
    have hl1 : Linked (stepRoot e n s) (openAfter (n : Int) e) := by
      have := runSteps_linked [((n : Int), e)] s o hl
        (fun c hc => by
          rw [List.mem_singleton] at hc
          subst hc
          exact h0)
      simpa [runSteps, finalOpen] using this
    have hih := ih (stepRoot e n s) (openAfter (n : Int) e) hl1
      (fun c hc => h c (List.mem_cons_of_mem _ hc)) r
    simp only [runSteps, finalOpen, Int.toNat_ofNat]
    rw [hih, stepRoot_time, openStart_openAfter]
    cases o with
    | none =>
      have hcur : s.curset = 0 := hl
      have hf : ¬ (s.curset = r ∧ r ≠ 0) := fun hh => hh.2 (hh.1 ▸ hcur)
      simp only [closedDwells, openStart, if_neg hf]
      ring
    | some p =>
      obtain ⟨r', t0⟩ := p
      obtain ⟨hr', hne⟩ : r' = (s.curset : Int) ∧ s.curset ≠ 0 := hl
      subst hr'
      simp only [closedDwells, openStart, durationIn_cons]
      by_cases hcr : s.curset = r
      · have h1 : (s.curset : Int) = (r : Int) := by omega
        have h2 : s.curset = r ∧ r ≠ 0 := ⟨hcr, hcr ▸ hne⟩
        rw [if_pos h1, if_pos h1, if_pos h2]
        ring
      · have h1 : ¬ ((s.curset : Int) = (r : Int)) := by omega
        have h2 : ¬ (s.curset = r ∧ r ≠ 0) := fun hh => hcr hh.1
        rw [if_neg h1, if_neg h1, if_neg h2]
        ring

/-- The entry of the counter vector that belongs to metric `j` of link `i`
lies inside the vector and decomposes back into `j` and `i`. -/
theorem counter_index (ne i j : Nat) (hi : i < NUM_TORUS_LINKS) (hj : j < ne) :
    i * ne + j < NUM_TORUS_LINKS * ne ∧ (i * ne + j) / ne = i ∧ (i * ne + j) % ne = j := by
  obtain ⟨hd, hm⟩ := block_div_mod ne i (i * ne + j) (Nat.le_add_right _ _) (by omega)
  refine ⟨?_, hd, by omega⟩
  have h1 : (i + 1) * ne ≤ NUM_TORUS_LINKS * ne := Nat.mul_le_mul_right ne hi
  rw [Nat.succ_mul] at h1
  omega

/-- The counter of metric `j` on link `i` after one call. -/
theorem stepRoot_counter (env : CallEnv) (n : Nat) (s : Profiler) (r i j : Nat)
    (hi : i < NUM_TORUS_LINKS) (hj : j < s.numevents) :
    ((stepRoot env n s).values r).counters (i * s.numevents + j) =
      if s.curset = r ∧ r ≠ 0
      then ((s.values r).counters (i * s.numevents + j) + env.val j i) % U64
      else (s.values r).counters (i * s.numevents + j) := by
  obtain ⟨h1, h2, h3⟩ := counter_index s.numevents i j hi hj
  rw [stepRoot_counters]
  by_cases h : s.curset = r ∧ r ≠ 0
  · simp only [if_pos h, countersAfterRead, if_pos h1, h2, h3]
  · simp only [if_neg h]

/-- The counter of metric `j` on link `i` in region `r` after a sequence of
calls: the reads of every call that left `r` have been added modulo `2 ^ 64`. -/
theorem runSteps_counter :
    ∀ (trace : List (Int × CallEnv)) (s : Profiler) (r i j : Nat), i < NUM_TORUS_LINKS →
      j < s.numevents → (∀ c ∈ trace, 0 ≤ c.1) →
      (s.values r).counters (i * s.numevents + j) < U64 →
      ((runSteps trace s).values r).counters (i * s.numevents + j) =
        ((s.values r).counters (i * s.numevents + j) +
          (readsLeaving (r : Int) j i (s.curset : Int) trace).sum) % U64 := by
  intro trace
  induction trace with
  | nil =>
    intro s r i j _ _ _ hlt
    simp [runSteps, readsLeaving, Nat.mod_eq_of_lt hlt]
  | cons c rest ih =>
    intro s r i j hi hj h hlt
    obtain ⟨c, e⟩ := c
    have h0 : 0 ≤ c := h (c, e) (List.mem_cons_self _ _)
    obtain ⟨n, rfl⟩ := Int.eq_ofNat_of_zero_le h0
    have hU : 0 < U64 := by simp [U64]
    have hstep := stepRoot_counter e n s r i j hi hj
    have hlt1 : ((stepRoot e n s).values r).counters (i * s.numevents + j) < U64 := by
      rw [hstep]
      split_ifs
      · exact Nat.mod_lt _ hU
      · exact hlt
    have hih := ih (stepRoot e n s) r i j hi (by rw [stepRoot_numevents]; exact hj)
      (fun c hc => h c (List.mem_cons_of_mem _ hc))
    simp only [stepRoot_numevents, stepRoot_curset] at hih
    simp only [runSteps, Int.toNat_ofNat, readsLeaving]
    rw [hih hlt1, hstep]
    by_cases hc : s.curset = r ∧ r ≠ 0
    · have hc' : (s.curset : Int) = (r : Int) ∧ (r : Int) ≠ 0 := by omega
      rw [if_pos hc, if_pos hc']
      simp only [List.singleton_append, List.sum_cons]
      rw [Nat.mod_add_mod, Nat.add_assoc]
    · have hc' : ¬ ((s.curset : Int) = (r : Int) ∧ (r : Int) ≠ 0) := by omega
      rw [if_neg hc, if_neg hc']
      simp

theorem finalOpen_last_zero :
    ∀ (trace : List (Int × CallEnv)) (o : OpenDwell),
      (trace.map Prod.fst).getLast? = some 0 → finalOpen o trace = none := by
  intro trace
  induction trace with
  | nil => intro o h; simp at h
  | cons c rest ih =>
    intro o h
    obtain ⟨c, e⟩ := c
    cases rest with
    | nil =>
      simp only [List.map_cons, List.map_nil, List.getLast?_singleton, Option.some.injEq] at h
      simp [finalOpen, openAfter, h]
    | cons d rest2 =>
      simp only [List.map_cons, List.getLast?_cons_cons] at h
      show finalOpen (openAfter c e) (d :: rest2) = none
      exact ih (openAfter c e) (by simpa using h)

/-! ## Calls that return, on any state -/

/-- A property that every successful round of the body preserves holds after
a loop that returns. -/
theorem forLoop_preserved {σ : Type} (body : Nat → σ → Option σ) (Q : σ → Prop)
    (hb : ∀ k t t', Q t → body k t = some t' → Q t') :
    ∀ (n i : Nat) (s t : σ), Q s → forLoop body n i s = some t → Q t := by
  intro n
  induction n with
  | zero =>
    intro i s t hq h
    simp only [forLoop, Option.some.injEq] at h
    exact h ▸ hq
  | succ n ih =>
    intro i s t hq h
    simp only [forLoop] at h
    cases hbody : body i s with
    | none => rw [hbody] at h; simp at h
    | some s1 =>
      rw [hbody, Option.some_bind] at h
      exact ih (i + 1) s1 t (hb i s s1 hq hbody) h

theorem readLinkEvent_sameCtl (env : CallEnv) (s : Profiler) (i j : Nat) (st st' : Profiler × Nat)
    (hq : SameCtl s st.1) (h : readLinkEvent env i j st = some st') : SameCtl s st'.1 := by
  simp only [readLinkEvent] at h
  split_ifs at h
  simp only [Option.some.injEq] at h
  subst h
  exact hq

theorem leaveRegion_sameCtl (env : CallEnv) (s s' : Profiler)
    (h : leaveRegion env s = some s') : SameCtl s s' := by
  simp only [leaveRegion] at h
  split_ifs at h
  simp only [Option.map_eq_some', Prod.exists, exists_and_right, exists_eq_right] at h
  obtain ⟨cnt, h⟩ := h
  have := forLoop_preserved
    (fun i st => forLoop (fun j st => readLinkEvent env i j st) st.1.numevents 0 st)
    (fun st => SameCtl s st.1)
    (fun i t t' hq hb =>
      forLoop_preserved (fun j st => readLinkEvent env i j st) (fun st => SameCtl s st.1)
        (fun j u u' hu hj => readLinkEvent_sameCtl env s i j u u' hu hj) _ _ t t' hq hb)
    _ _ _ _ (by exact ⟨rfl, rfl, rfl, rfl, rfl⟩) h
  exact this

theorem enterRegion_some (env : CallEnv) (ctrl : Int) (s s' : Profiler)
    (h : enterRegion env ctrl s = some s') : 0 ≤ ctrl ∧ SameCtl s s' := by
  simp only [enterRegion] at h
  split_ifs at h with hb
  simp only [Option.some.injEq] at h
  subst h
  exact ⟨hb, rfl, rfl, rfl, rfl, rfl⟩

/-- What a call that returns keeps, on any state and for any argument: the
role flags and the metric count stay and `maxset` does not decrease. -/
theorem PROFILER_PCONTROL_some (env : CallEnv) (ctrl : Int) (s s' : Profiler)
    (h : PROFILER_PCONTROL env ctrl s = some s') :
    s'.isZero = s.isZero ∧ s'.isMaster = s.isMaster ∧ s'.numevents = s.numevents ∧
      s.maxset ≤ s'.maxset := by
  unfold PROFILER_PCONTROL at h
  by_cases hz : s.isZero = 0
  · simp only [hz, ne_eq, not_true_eq_false, if_false, Option.some.injEq] at h
    subst h
    exact ⟨rfl, rfl, rfl, le_refl _⟩
  · simp only [ne_eq, hz, not_false_eq_true, if_true] at h
    by_cases h00 : ctrl = 0 ∧ s.curset = 0
    · simp only [h00, and_self, if_true, Option.some.injEq] at h
      subst h
      exact ⟨rfl, rfl, rfl, le_refl _⟩
    · simp only [if_neg h00] at h
      obtain ⟨s1, hs1, h⟩ := Option.bind_eq_some.mp h
      obtain ⟨s2, hs2, h⟩ := Option.bind_eq_some.mp h
      have c1 : SameCtl s s1 := by
        by_cases hc0 : s.curset = 0
        · simp only [hc0, ne_eq, not_true_eq_false, if_false, Option.some.injEq] at hs1
          subst hs1
          exact ⟨rfl, rfl, rfl, rfl, rfl⟩
        · simp only [ne_eq, hc0, not_false_eq_true, if_true] at hs1
          exact leaveRegion_sameCtl env s s1 hs1
      have c2 : SameCtl s1 s2 := by
        by_cases hc : ctrl = 0
        · simp only [hc, ne_eq, not_true_eq_false, if_false, Option.some.injEq] at hs2
          subst hs2
          exact ⟨rfl, rfl, rfl, rfl, rfl⟩
        · simp only [ne_eq, hc, not_false_eq_true, if_true] at hs2
          exact (enterRegion_some env ctrl s1 s2 hs2).2
      obtain ⟨z2, m2, n2, _, x2⟩ := c2
      obtain ⟨z1, m1, n1, _, x1⟩ := c1
      simp only [gt_iff_lt, Option.some.injEq] at h
      subst h
      split_ifs with hgt
      · simp only [] at hgt ⊢
        refine ⟨by rw [z2, z1], by rw [m2, m1], by rw [n2, n1], ?_⟩
        rw [x2, x1] at hgt
        exact le_of_lt hgt
      · simp only [] at hgt ⊢
        refine ⟨by rw [z2, z1], by rw [m2, m1], by rw [n2, n1], ?_⟩
        rw [x2, x1]

/-- What a sequence of calls that returns keeps. -/
theorem runPcontrol_some :
    ∀ (trace : List (Int × CallEnv)) (s s' : Profiler), runPcontrol trace s = some s' →
      s'.isZero = s.isZero ∧ s'.isMaster = s.isMaster ∧ s'.numevents = s.numevents ∧
      s.maxset ≤ s'.maxset := by
  intro trace
  induction trace with
  | nil =>
    intro s s' h
    simp only [runPcontrol, Option.some.injEq] at h
    subst h
    exact ⟨rfl, rfl, rfl, le_refl _⟩
  | cons c rest ih =>
    intro s s' h
    obtain ⟨c, e⟩ := c
    simp only [runPcontrol] at h
    obtain ⟨s1, hs1, h⟩ := Option.bind_eq_some.mp h
    obtain ⟨a1, b1, c1, d1⟩ := PROFILER_PCONTROL_some e c s s1 hs1
    obtain ⟨a2, b2, c2, d2⟩ := ih s1 s' h
    exact ⟨by rw [a2, a1], by rw [b2, b1], by rw [c2, c1], le_trans d1 d2⟩

/-! ## `PROFILER_FINALIZE` -/

/-- The loop of lines 214-216 fills `profile_ranks` with `0 .. nranks - 1`. -/
theorem profileRanks_loop :
    ∀ (n i : Nat) (l : List Int),
      forLoop (fun j (l : List Int) => some (l ++ [(j : Int)])) n i l =
        some (l ++ (List.range' i n).map fun (j : Nat) => (j : Int)) := by
  intro n
  induction n with
  | zero => intro i l; simp [forLoop]
  | succ n ih =>
    intro i l
    simp only [forLoop, Option.some_bind]
    rw [ih]
    simp [List.range'_succ]

/-- The loop of lines 227-229 appends `n` consecutive entries of the gathered
buffer to the line in progress. -/
theorem printCounter_loop (ac : List Nat) :
    ∀ (n k : Nat) (o : Output) (cnt : Nat),
      forLoop (printCounter ac) n k (o, cnt) =
        some ({ o with cur := o.cur ++ (List.range n).map fun x => Tok.u64 (ac.getD (cnt + x) 0) },
          cnt + n) := by
  intro n
  induction n with
  | zero => intro k o cnt; simp [forLoop]
  | succ n ih =>
    intro k o cnt
    simp only [forLoop, printCounter, Option.some_bind]
    rw [ih]
    simp only [Output.put, List.append_assoc, List.singleton_append, Option.some.injEq,
      Prod.mk.injEq]
    refine ⟨?_, by omega⟩
    congr 1
    congr 1
    rw [List.range_succ_eq_map]
    simp only [List.map_cons, List.map_map, Nat.add_zero, List.cons.injEq, true_and]
    apply List.map_congr_left
    intro x _
    simp only [Function.comp_apply]
    congr 2
    omega

/-- One report line: closed form of `printRow`. -/
theorem printRow_spec (env : FinEnv) (s : Profiler) (i : Nat) (wr : List Int) (ac : List Nat)
    (j : Nat) (o : Output) (cnt : Nat) :
    printRow env s i wr ac j (o, cnt) =
      some ({ lines := o.lines ++ [o.cur ++ (rowHead env i (wr.getD j 0) ++
                (List.range (NUM_TORUS_LINKS * s.numevents)).map
                  fun x => Tok.u64 (ac.getD (cnt + x) 0))],
              cur := [], summaries := o.summaries },
        cnt + NUM_TORUS_LINKS * s.numevents) := by
  simp only [printRow, printCounter_loop, Option.map_some', Output.put, Output.newline,
    rowHead, List.append_assoc, List.singleton_append, List.cons_append, List.nil_append]

/-- The loop of lines 222-231 writes the lines of the sub-group ranks in
ascending order, each with its own slice of the gathered buffer. -/
theorem printRow_loop (env : FinEnv) (s : Profiler) (i : Nat) (wr : List Int) :
    ∀ (n j0 : Nat) (o : Output), o.cur = [] →
      (∀ j, j0 ≤ j → j < j0 + n → wr.getD j 0 = env.translate (j : Int)) →
      forLoop (printRow env s i wr (gatheredCounters env i)) n j0
          (o, j0 * (NUM_TORUS_LINKS * s.numevents)) =
        some ({ lines := o.lines ++ (List.range' j0 n).map (reportRow env s i),
                cur := [], summaries := o.summaries },
          (j0 + n) * (NUM_TORUS_LINKS * s.numevents)) := by
  intro n
  induction n with
  | zero =>
    intro j0 o ho _
    cases o
    simp only at ho
    simp [forLoop, ho]
  | succ n ih =>
    intro j0 o ho hw
    simp only [forLoop, printRow_spec, Option.some_bind]
    have e : j0 * (NUM_TORUS_LINKS * s.numevents) + NUM_TORUS_LINKS * s.numevents =
        (j0 + 1) * (NUM_TORUS_LINKS * s.numevents) := by ring
    rw [e, ih (j0 + 1) _ rfl (fun j h1 h2 => hw j (by omega) (by omega))]
    simp only [Option.some.injEq, Prod.mk.injEq]
    refine ⟨?_, by ring⟩
    rw [hw j0 (le_refl _) (by omega), ho]
    simp [List.range'_succ, reportRow]

/-- The min/avg/max loop returns for every buffer. -/
theorem timingSummary_total (times : List ℚ) (n : Nat) :
    ∃ t, timingSummary times n = some t := by
  obtain ⟨t, ht, _⟩ := forLoop_invariant (timingStep times) (fun _ _ => True) n 0
    (times.getD 0 0, times.getD 0 0, 0) trivial
    (fun k t _ _ _ => ⟨_, rfl, trivial⟩)
  exact ⟨(t.1, t.2.2 / (n : ℚ), t.2.1), by simp only [timingSummary, ht, Option.map_some']⟩

theorem worldRanks_getD (f : Int → Int) (n j : Nat) (hj : j < n) :
    ((([] : List Int) ++ (List.range' 0 n).map fun (j : Nat) => (j : Int)).map f).getD j 0 = f (j : Int) := by
  rw [List.nil_append, List.getD_eq_getElem?_getD, List.getElem?_map, List.getElem?_map,
    List.getElem?_range' 0 1 hj]
  simp

/-- Closed form of the body of the region loop. -/
theorem finalizeRegion_spec (env : FinEnv) (s : Profiler) (i : Nat) (st : Finalized)
    (hcur : st.out.cur = []) :
    finalizeRegion env s i st =
      some { state := st.state, sent := st.sent ++ [sentOf s i],
             out := { lines := st.out.lines ++ rowsOf env s i, cur := [],
                      summaries := st.out.summaries ++ summariesOf env s i } } := by
  obtain ⟨state, sent, ⟨lines, cur, summaries⟩⟩ := st
  simp only at hcur
  subst hcur
  by_cases hm : s.isMaster = 0
  · simp [finalizeRegion, hm, rowsOf, summariesOf, sentOf]
  · obtain ⟨t, ht⟩ := timingSummary_total (gatheredTimes env i) env.roots.length
    have hrows := printRow_loop env s i
      ((([] : List Int) ++ (List.range' 0 env.roots.length).map fun (j : Nat) => (j : Int)).map
        env.translate)
      env.roots.length 0 { lines := lines, cur := [], summaries := summaries } rfl
      (fun j _ hj => worldRanks_getD env.translate env.roots.length j (by omega))
    simp only [Nat.zero_mul, Nat.zero_add] at hrows
    have hs : summaryOf env i = t := by simp [summaryOf, ht]
    simp only [finalizeRegion, if_true, ne_eq, hm, not_false_eq_true, profileRanks_loop,
      Option.some_bind]
    simp only [gatheredCounters, gatheredTimes] at hrows ht
    rw [hrows, Option.some_bind, ht]
    simp [rowsOf, summariesOf, sentOf, hm, hs, List.range_eq_range']

/-- The region loop of `PROFILER_FINALIZE` over regions `i0 .. i0 + n - 1`. -/
theorem finalize_loop (env : FinEnv) (s : Profiler) :
    ∀ (n i0 : Nat) (st : Finalized), st.out.cur = [] →
      forLoop (finalizeRegion env s) n i0 st =
        some { state := st.state, sent := st.sent ++ (List.range' i0 n).map (sentOf s),
               out := { lines := st.out.lines ++ (List.range' i0 n).flatMap (rowsOf env s),
                        cur := [],
                        summaries := st.out.summaries ++
                          (List.range' i0 n).flatMap (summariesOf env s) } } := by
  intro n
  induction n with
  | zero =>
    intro i0 st hcur
    obtain ⟨state, sent, ⟨lines, cur, summaries⟩⟩ := st
    simp only at hcur
    subst hcur
    simp [forLoop]
  | succ n ih =>
    intro i0 st hcur
    simp only [forLoop]
    rw [finalizeRegion_spec env s i0 st hcur, Option.some_bind, ih (i0 + 1) _ rfl]
    simp [List.range'_succ]

/-- Closed form of `PROFILER_FINALIZE` on a topology root: the call returns,
leaves the globals as they are, contributes one record per region
`1 .. maxset`, and on the master writes the lines and summaries of these
regions in ascending order. -/
theorem PROFILER_FINALIZE_root (env : FinEnv) (s : Profiler) (hz : s.isZero ≠ 0) :
    PROFILER_FINALIZE env s =
      some { state := s, sent := (List.range' 1 s.maxset).map (sentOf s),
             out := { lines := (List.range' 1 s.maxset).flatMap (rowsOf env s),
                      cur := [],
                      summaries := (List.range' 1 s.maxset).flatMap (summariesOf env s) } } := by
  simp only [PROFILER_FINALIZE, ne_eq, hz, not_false_eq_true, if_true]
  rw [finalize_loop env s s.maxset 1 _ rfl]
  simp

/-- A failed `assert` aborts the call. -/
theorem leaveRegion_assert (env : CallEnv) (s : Profiler) (h : env.numEvts ≠ s.numevents) :
    leaveRegion env s = none := by
  simp only [leaveRegion, if_neg h]

/-- On a topology root a call with a non-negative `int` that returns yields
`stepRoot`. -/
theorem PROFILER_PCONTROL_root_of_some (env : CallEnv) (n : Nat) (s s' : Profiler)
    (hs : RootInv s) (hn : (n : Int) ≤ INT_MAX)
    (h : PROFILER_PCONTROL env (n : Int) s = some s') : s' = stepRoot env n s := by
  by_cases ha : s.curset ≠ 0 → env.numEvts = s.numevents
  · rw [PROFILER_PCONTROL_root env n s hs.1 hs.2 hn ha] at h
    exact (Option.some.inj h).symm
  · push_neg at ha
    obtain ⟨hcur, hne⟩ := ha
    have h00 : ¬ ((n : Int) = 0 ∧ s.curset = 0) := fun hh => hcur hh.2
    simp [PROFILER_PCONTROL, hs.1, h00, hcur, leaveRegion_assert env s hne] at h

/-- On a topology root a sequence of calls with non-negative `int` region ids
that returns yields `runSteps`. -/
theorem runPcontrol_root_of_some :
    ∀ (trace : List (Int × CallEnv)) (s s' : Profiler), RootInv s →
      (∀ c ∈ trace, 0 ≤ c.1 ∧ c.1 ≤ INT_MAX) →
      runPcontrol trace s = some s' → s' = runSteps trace s := by
  intro trace
  induction trace with
  | nil =>
    intro s s' _ _ h
    exact (Option.some.inj h).symm
  | cons c rest ih =>
    intro s s' hs hr h
    obtain ⟨c, e⟩ := c
    obtain ⟨h0, h1⟩ := hr (c, e) (List.mem_cons_self _ _)
    obtain ⟨n, rfl⟩ := Int.eq_ofNat_of_zero_le h0
    simp only [runPcontrol] at h
    obtain ⟨s1, hs1, h⟩ := Option.bind_eq_some.mp h
    have e1 := PROFILER_PCONTROL_root_of_some e n s s1 hs h1 hs1
    subst e1
    simp only [runSteps, Int.toNat_ofNat]
    exact ih _ s' (stepRoot_RootInv e n s hs) (fun c hc => hr c (List.mem_cons_of_mem _ hc)) h

/-- The state `PROFILER_INIT` leaves on a topology root satisfies the bounds
of `RootInv`, has no dwell in progress and one configured metric. -/
theorem init_root_facts (ienv : InitEnv) (g : Profiler) (h5 : ienv.coords 5 = ROOT_RANK) :
    ∃ s0, PROFILER_INIT ienv g = some s0 ∧ s0.isZero = 1 ∧
      s0.isMaster = initIsMaster ienv.coords ∧ s0.numevents = 1 ∧
      s0.curset = 0 ∧ s0.maxset = 0 ∧ RootInv s0 ∧ Linked s0 none ∧
      ∀ r, r < NUM_REGIONS →
        (s0.values r).time = 0 ∧ ∀ c, c < NUM_TORUS_LINKS → (s0.values r).counters c = 0 := by
  obtain ⟨s0, h1, h2, h3, h4, h5', h6, _, _, _, h10⟩ := PROFILER_INIT_root ienv g h5
  refine ⟨s0, h1, h2, h3, h4, h5', h6, ⟨?_, ?_⟩, h5', h10⟩
  · rw [h2]; decide
  · rw [h4]; decide

theorem in_table_is_int (c : Int) (h : c < NUM_REGIONS) : c ≤ INT_MAX := by
  simp only [NUM_REGIONS, INT_MAX] at *
  omega

/-- On a topology root after `PROFILER_INIT`, a sequence of calls with
non-negative `int` region ids returns whenever the `assert` of line 167 holds. -/
theorem run_returns (s0 : Profiler) (trace : List (Int × CallEnv)) (hs : RootInv s0)
    (hne : s0.numevents = 1) (hids : ∀ c ∈ trace, 0 ≤ c.1 ∧ c.1 ≤ INT_MAX)
    (hassert : ∀ c ∈ trace, c.2.numEvts = 1) : ∃ s, runPcontrol trace s0 = some s :=
  ⟨runSteps trace s0, runPcontrol_root trace s0 hs
    (fun c hc => ⟨(hids c hc).1, (hids c hc).2, by rw [hne]; exact hassert c hc⟩)⟩

/-! ## Positions in the report and in the gathered buffers -/

theorem range'_one_getElem? (m r : Nat) (h1 : 1 ≤ r) (h2 : r ≤ m) :
    (List.range' 1 m)[r - 1]? = some r := by
  rw [List.getElem?_range' 1 1 (by omega)]
  congr 1
  omega

theorem runSteps_append (pre : List (Int × CallEnv)) (c : Int) (e : CallEnv) :
    ∀ s : Profiler, runSteps (pre ++ [(c, e)]) s = stepRoot e c.toNat (runSteps pre s) := by
  induction pre with
  | nil => intro s; rfl
  | cons x pre ih =>
    intro s
    obtain ⟨c', e'⟩ := x
    simp only [List.cons_append, runSteps]
    exact ih _

theorem finalOpen_append (pre : List (Int × CallEnv)) (c : Int) (e : CallEnv) :
    ∀ o : OpenDwell, finalOpen o (pre ++ [(c, e)]) = openAfter c e := by
  induction pre with
  | nil => intro o; rfl
  | cons x pre ih =>
    intro o
    obtain ⟨c', e'⟩ := x
    simp only [List.cons_append, finalOpen]
    exact ih _

/-- No call leaves region `r` in a sequence whose calls before the last one
never pass `r`. -/
theorem readsLeaving_first_visit (r : Int) (j i : Nat) (x : Int × CallEnv) :
    ∀ (pre : List (Int × CallEnv)) (cur : Int), cur ≠ r → (∀ c ∈ pre, c.1 ≠ r) →
      readsLeaving r j i cur (pre ++ [x]) = [] := by
  intro pre
  induction pre with
  | nil =>
    intro cur hcur _
    obtain ⟨c, e⟩ := x
    have : ¬ (cur = r ∧ r ≠ 0) := fun h => hcur h.1
    simp [readsLeaving, this]
  | cons y pre ih =>
    intro cur hcur hpre
    obtain ⟨c, e⟩ := y
    have : ¬ (cur = r ∧ r ≠ 0) := fun h => hcur h.1
    simp only [List.cons_append, readsLeaving, if_neg this, List.nil_append]
    exact ih c (hpre (c, e) (List.mem_cons_self _ _))
      (fun d hd => hpre d (List.mem_cons_of_mem _ hd))

theorem ids_in_table (trace : List (Int × CallEnv))
    (h : ∀ c ∈ trace, 0 ≤ c.1 ∧ c.1 < NUM_REGIONS) :
    ∀ c ∈ trace, 0 ≤ c.1 ∧ c.1 ≤ INT_MAX :=
  fun c hc => ⟨(h c hc).1, in_table_is_int c.1 (h c hc).2⟩

/-- C1: on a topology root (`isZero = 1`) initialised by `PROFILER_INIT`, after
any sequence of `PROFILER_PCONTROL` calls with region ids in `[0, NUM_REGIONS)`
that ends in `PROFILER_PCONTROL(0)`, `values[r].time` equals, for every `r` in
`[1, NUM_REGIONS)`, the sum of the durations of all dwells in `r`, the duration
of a dwell being the clock reading taken when the region is left minus the
reading taken when it was entered.  The sequence returns whenever the counter
set reports the configured metric count (the `assert` of line 167), and the
equation holds for every sequence that returns. -/
theorem C1_time_is_sum_of_dwells (ienv : InitEnv) (g : Profiler)
    (trace : List (Int × CallEnv)) (hroot : ienv.coords 5 = ROOT_RANK)
    (hids : ∀ c ∈ trace, 0 ≤ c.1 ∧ c.1 < NUM_REGIONS)
    (hlast : (trace.map Prod.fst).getLast? = some 0) :
    ∃ s0, PROFILER_INIT ienv g = some s0 ∧ s0.isZero = 1 ∧
      ((∀ c ∈ trace, c.2.numEvts = 1) → ∃ s, runPcontrol trace s0 = some s) ∧
      ∀ s, runPcontrol trace s0 = some s →
        ∀ r : Nat, 1 ≤ r → r < NUM_REGIONS → (s.values r).time = dwellTime (r : Int) trace := by
  obtain ⟨s0, h1, h2, _, h4, _, _, hinv, hlink, hzero⟩ := init_root_facts ienv g hroot
  refine ⟨s0, h1, h2, run_returns s0 trace hinv h4 (ids_in_table trace hids), ?_⟩
  intro s hs r _ hr
  have hs' := runPcontrol_root_of_some trace s0 s hinv (ids_in_table trace hids) hs
  subst hs'
  have ht := runSteps_time trace s0 none hlink (fun c hc => (hids c hc).1) r
  rw [finalOpen_last_zero trace none hlast, (hzero r hr).1] at ht
  simpa [openStart, dwellTime] using ht

/-- Witness of C1: on the sample sequence 1, 2, 1, 0 region 1 is active from
reading 11 to 15 and from 21 to 30, region 2 from 16 to 20. -/
theorem C1_witness :
    masterEnv.coords 5 = ROOT_RANK ∧
    (∀ c ∈ sampleTrace, 0 ≤ c.1 ∧ c.1 < NUM_REGIONS) ∧
    (sampleTrace.map Prod.fst).getLast? = some 0 ∧
    ∃ s0, PROFILER_INIT masterEnv globals0 = some s0 ∧
      ∃ s, runPcontrol sampleTrace s0 = some s ∧
        (s.values 1).time = 13 ∧ (s.values 2).time = 4 ∧ (s.values 3).time = 0 := by
  have hids : ∀ c ∈ sampleTrace, 0 ≤ c.1 ∧ c.1 < NUM_REGIONS := by
    simp [sampleTrace, NUM_REGIONS]
  refine ⟨rfl, hids, rfl, ?_⟩
  obtain ⟨s0, h1, _, hret, hall⟩ :=
    C1_time_is_sum_of_dwells masterEnv globals0 sampleTrace rfl hids rfl
  obtain ⟨s, hs⟩ := hret (by simp [sampleTrace, callEnv])
  refine ⟨s0, h1, s, hs, ?_, ?_, ?_⟩
  · rw [hall s hs 1 (by decide) (by decide)]
    norm_num [dwellTime, closedDwells, openAfter, durationIn, sampleTrace, callEnv, List.filter]
  · rw [hall s hs 2 (by decide) (by decide)]
    norm_num [dwellTime, closedDwells, openAfter, durationIn, sampleTrace, callEnv, List.filter]
  · rw [hall s hs 3 (by decide) (by decide)]
    norm_num [dwellTime, closedDwells, openAfter, durationIn, sampleTrace, callEnv, List.filter]

/-- C2: on a topology root initialised by `PROFILER_INIT`, after any sequence of
`PROFILER_PCONTROL` calls with region ids in `[0, NUM_REGIONS)`, for every
region `r != 0`, link index `i < NUM_TORUS_LINKS` and metric index
`j < numevents`, `values[r].counters[i * numevents + j]` is the sum, modulo
`2 ^ 64`, of the values `Bgpm_NW_ReadLinkEvent` returned for metric `j` on
`linkmask[i]` at each call that left `r`: later visits add to the earlier
total.  The sequence returns whenever the `assert` of line 167 holds, and the
equation holds for every sequence that returns. -/
theorem C2_counters_accumulate (ienv : InitEnv) (g : Profiler)
    (trace : List (Int × CallEnv)) (hroot : ienv.coords 5 = ROOT_RANK)
    (hids : ∀ c ∈ trace, 0 ≤ c.1 ∧ c.1 < NUM_REGIONS) :
    ∃ s0, PROFILER_INIT ienv g = some s0 ∧ s0.isZero = 1 ∧
      ((∀ c ∈ trace, c.2.numEvts = 1) → ∃ s, runPcontrol trace s0 = some s) ∧
      ∀ s, runPcontrol trace s0 = some s →
        ∀ r i j : Nat, r ≠ 0 → r < NUM_REGIONS → i < NUM_TORUS_LINKS → j < s.numevents →
          (s.values r).counters (i * s.numevents + j) =
            (readsLeaving (r : Int) j i 0 trace).sum % U64 := by
  obtain ⟨s0, h1, h2, _, h4, h5, _, hinv, _, hzero⟩ := init_root_facts ienv g hroot
  refine ⟨s0, h1, h2, run_returns s0 trace hinv h4 (ids_in_table trace hids), ?_⟩
  intro s hs r i j _ hr hi hj
  have hs' := runPcontrol_root_of_some trace s0 s hinv (ids_in_table trace hids) hs
  subst hs'
  rw [runSteps_numevents] at hj ⊢
  have hj0 : j = 0 := by omega
  have hz : (s0.values r).counters (i * s0.numevents + j) = 0 := by
    apply (hzero r hr).2
    rw [h4, hj0]
    omega
  have hc := runSteps_counter trace s0 r i j hi hj (fun c hc => (hids c hc).1)
    (by rw [hz]; simp [U64])
  rw [hc, hz, h5]
  simp

/-- Witness of C2: on the sample sequence 1, 2, 1, 0 region 1 is left by the
second call (every link reads 5) and by the fourth (every link reads 9),
region 2 by the third (every link reads 7). -/
theorem C2_witness :
    masterEnv.coords 5 = ROOT_RANK ∧
    (∀ c ∈ sampleTrace, 0 ≤ c.1 ∧ c.1 < NUM_REGIONS) ∧
    ∃ s0, PROFILER_INIT masterEnv globals0 = some s0 ∧
      ∃ s, runPcontrol sampleTrace s0 = some s ∧ s.numevents = 1 ∧
        (s.values 1).counters 3 = 14 ∧ (s.values 2).counters 9 = 7 := by
  have hids : ∀ c ∈ sampleTrace, 0 ≤ c.1 ∧ c.1 < NUM_REGIONS := by
    simp [sampleTrace, NUM_REGIONS]
  refine ⟨rfl, hids, ?_⟩
  obtain ⟨s0, h1, _, hret, hall⟩ :=
    C2_counters_accumulate masterEnv globals0 sampleTrace rfl hids
  obtain ⟨s, hs⟩ := hret (by simp [sampleTrace, callEnv])
  obtain ⟨s0', h1', _, _, hne0, _⟩ := init_root_facts masterEnv globals0 rfl
  have hs0 : s0' = s0 := Option.some.inj (h1'.symm.trans h1)
  subst hs0
  have hne : s.numevents = 1 := by rw [(runPcontrol_some sampleTrace s0' s hs).2.2.1, hne0]
  refine ⟨s0', h1, s, hs, hne, ?_, ?_⟩
  · have := hall s hs 1 3 0 (by decide) (by decide) (by decide) (by rw [hne]; decide)
    rw [hne] at this
    rw [show 3 = 3 * 1 + 0 from rfl, this]
    norm_num [readsLeaving, sampleTrace, callEnv, CallEnv.val, U64]
  · have := hall s hs 2 9 0 (by decide) (by decide) (by decide) (by rw [hne]; decide)
    rw [hne] at this
    rw [show 9 = 9 * 1 + 0 from rfl, this]
    norm_num [readsLeaving, sampleTrace, callEnv, CallEnv.val, U64]

/-- C4: `PROFILER_PCONTROL(0)` called while `curset == 0` is a no-op on every
process: the call returns the state it was given, so `curset`, `maxset`, every
`values[r]` and the counts of clock reads, link-counter reads and counter-set
resets are what they were. -/
theorem C4_stop_when_idle_is_noop (env : CallEnv) (s : Profiler) (h : s.curset = 0) :
    PROFILER_PCONTROL env 0 s = some s := by
  by_cases hz : s.isZero = 0 <;> simp [PROFILER_PCONTROL, hz, h]

/-- Witness of C4: an idle topology root that has seen region 3. -/
theorem C4_witness :
    ({ globals0 with isZero := 1, numevents := 1, maxset := 3 } : Profiler).curset = 0 ∧
    PROFILER_PCONTROL (callEnv 5 6 7) 0 { globals0 with isZero := 1, numevents := 1, maxset := 3 } =
      some { globals0 with isZero := 1, numevents := 1, maxset := 3 } :=
  ⟨rfl, C4_stop_when_idle_is_noop (callEnv 5 6 7) _ rfl⟩

/-- C8: on a process that is not a topology root (`isZero = 0`) every
`PROFILER_PCONTROL` call, with any argument, returns the state it was given:
no clock read, no link-counter read, no reset, `curset`, `maxset` and the
region table unchanged.  So after `PROFILER_INIT` at program start and any
sequence of calls every `values[r].counters` entry and every `values[r].time`
of such a process is zero. -/
theorem C8_nonroot_calls_are_noops (ienv : InitEnv) (trace : List (Int × CallEnv))
    (h5 : ienv.coords 5 ≠ ROOT_RANK) :
    (∀ (env : CallEnv) (ctrl : Int) (s : Profiler), s.isZero = 0 →
      PROFILER_PCONTROL env ctrl s = some s) ∧
    ∃ s0, PROFILER_INIT ienv globals0 = some s0 ∧ s0.isZero = 0 ∧
      runPcontrol trace s0 = some s0 ∧
      s0.wtimeCalls = 0 ∧ s0.linkReads = 0 ∧ s0.resetStarts = 0 ∧
      ∀ r, (s0.values r).time = 0 ∧ ∀ c, (s0.values r).counters c = 0 := by
  have hnoop : ∀ (env : CallEnv) (ctrl : Int) (s : Profiler), s.isZero = 0 →
      PROFILER_PCONTROL env ctrl s = some s := by
    intro env ctrl s hz
    simp [PROFILER_PCONTROL, hz]
  refine ⟨hnoop, ?_⟩
  obtain ⟨s0, hs, hz, _, hv, _, _, hw, hl, hr⟩ := PROFILER_INIT_nonroot ienv globals0 h5
  refine ⟨s0, hs, hz, ?_, hw, hl, hr, ?_⟩
  · induction trace with
    | nil => rfl
    | cons c rest ih =>
      obtain ⟨c, e⟩ := c
      simp only [runPcontrol, hnoop e c s0 hz, Option.some_bind]
      exact ih
  · intro r
    rw [hv]
    exact ⟨rfl, fun _ => rfl⟩

/-- Witness of C8: a process with coordinate 1 on the last axis running the
sample sequence. -/
theorem C8_witness :
    ordinaryEnv.coords 5 ≠ ROOT_RANK ∧
    ∃ s0, PROFILER_INIT ordinaryEnv globals0 = some s0 ∧
      runPcontrol sampleTrace s0 = some s0 ∧ (s0.values 1).time = 0 ∧
      (s0.values 1).counters 3 = 0 := by
  have h5 : ordinaryEnv.coords 5 ≠ ROOT_RANK := by decide
  obtain ⟨_, s0, hs, _, hrun, _, _, _, hv⟩ := C8_nonroot_calls_are_noops ordinaryEnv sampleTrace h5
  exact ⟨h5, s0, hs, hrun, (hv 1).1, (hv 1).2 3⟩

/-- C9: if `PROFILER_FINALIZE` is called on a topology root while
`curset = r != 0`, the last `PROFILER_PCONTROL` call having entered `r`, then
finalize returns the globals as they were, with no further clock or counter
read; the record the process contributes for `r` holds the counters summed
over the calls that left `r` earlier, all zero if `r` was never passed before,
and a time equal to the summed durations of the finished dwells in `r` minus
the clock reading taken at the final entry; and `r <= maxset`, so the record
for `r` is part of the sweep. -/
theorem C9_unterminated_region (ienv : InitEnv) (g : Profiler)
    (pre : List (Int × CallEnv)) (r : Nat) (e : CallEnv) (fenv : FinEnv)
    (hroot : ienv.coords 5 = ROOT_RANK)
    (hids : ∀ c ∈ pre, 0 ≤ c.1 ∧ c.1 < NUM_REGIONS)
    (hr0 : r ≠ 0) (hr : r < NUM_REGIONS) :
    ∃ s0, PROFILER_INIT ienv g = some s0 ∧ s0.isZero = 1 ∧
      ((∀ c ∈ pre ++ [((r : Int), e)], c.2.numEvts = 1) →
        ∃ s, runPcontrol (pre ++ [((r : Int), e)]) s0 = some s) ∧
      ∀ s, runPcontrol (pre ++ [((r : Int), e)]) s0 = some s →
        s.curset = r ∧ r ≤ s.maxset ∧
        ∃ res, PROFILER_FINALIZE fenv s = some res ∧ res.state = s ∧
          res.sent[r - 1]? = some (r, sendCounters s r, (s.values r).time) ∧
          (s.values r).time = dwellTime (r : Int) (pre ++ [((r : Int), e)]) - e.wtimeEnter ∧
          (∀ i j : Nat, i < NUM_TORUS_LINKS → j < s.numevents →
            (s.values r).counters (i * s.numevents + j) =
              (readsLeaving (r : Int) j i 0 (pre ++ [((r : Int), e)])).sum % U64) ∧
          ((∀ c ∈ pre, c.1 ≠ (r : Int)) → ∀ x ∈ sendCounters s r, x = 0) := by
  obtain ⟨s0, h1, h2, _, h4, h5, _, hinv, hlink, hzero⟩ := init_root_facts ienv g hroot
  have hids' : ∀ c ∈ pre ++ [((r : Int), e)], 0 ≤ c.1 ∧ c.1 < NUM_REGIONS := by
    intro c hc
    rw [List.mem_append, List.mem_singleton] at hc
    rcases hc with hc | rfl
    · exact hids c hc
    · refine ⟨by simp, ?_⟩
      show (r : Int) < NUM_REGIONS
      exact_mod_cast hr
  refine ⟨s0, h1, h2, run_returns s0 _ hinv h4 (ids_in_table _ hids'), ?_⟩
  intro s hs
  have hs' := runPcontrol_root_of_some _ s0 s hinv (ids_in_table _ hids') hs
  have hne : s.numevents = 1 := by rw [hs', runSteps_numevents, h4]
  have hcur : s.curset = r := by
    rw [hs', runSteps_append, stepRoot_curset, Int.toNat_ofNat]
  have hmaxr : r ≤ s.maxset := by
    rw [hs', runSteps_append, stepRoot_maxset, Int.toNat_ofNat]
    exact le_max_right _ _
  have hz' : s.isZero ≠ 0 := by rw [hs', runSteps_isZero, h2]; decide
  have hcounter : ∀ i j : Nat, i < NUM_TORUS_LINKS → j < s.numevents →
      (s.values r).counters (i * s.numevents + j) =
        (readsLeaving (r : Int) j i 0 (pre ++ [((r : Int), e)])).sum % U64 := by
    intro i j hi hj
    rw [hne] at hj ⊢
    have hj0 : j = 0 := by omega
    have hzc : (s0.values r).counters (i * s0.numevents + j) = 0 := by
      apply (hzero r hr).2
      rw [h4, hj0]
      omega
    have hc := runSteps_counter (pre ++ [((r : Int), e)]) s0 r i j hi (by rw [h4, hj0]; decide)
      (fun c hc => (hids' c hc).1) (by rw [hzc]; simp [U64])
    rw [hzc, h5, h4, ← hs'] at hc
    simpa using hc
  refine ⟨hcur, hmaxr, _, PROFILER_FINALIZE_root fenv s hz', rfl, ?_, ?_, hcounter, ?_⟩
  · simp only [List.getElem?_map, range'_one_getElem? s.maxset r (by omega) hmaxr,
      Option.map_some', sentOf]
  · have ht := runSteps_time (pre ++ [((r : Int), e)]) s0 none hlink
      (fun c hc => (hids' c hc).1) r
    have hr0' : ¬ ((r : Int) = 0) := by omega
    rw [finalOpen_append, (hzero r hr).1, ← hs'] at ht
    simp only [openAfter, hr0', if_false, openStart, if_true, zero_add] at ht
    rw [dwellTime, ← ht]
    ring
  · intro hfirst x hx
    simp only [sendCounters, hne, List.mem_map, List.mem_range] at hx
    obtain ⟨c, hc, rfl⟩ := hx
    have := hcounter c 0 (by simpa using hc) (by rw [hne]; decide)
    rw [hne] at this
    simp only [Nat.mul_one, Nat.add_zero] at this
    rw [this, readsLeaving_first_visit (r : Int) 0 c _ pre 0 (by omega) hfirst]
    rfl

/-- Witness of C9: the sequence 1, 2 followed by finalize; region 2 was
entered at reading 16 and never left. -/
theorem C9_witness :
    masterEnv.coords 5 = ROOT_RANK ∧
    (∀ c ∈ [((1 : Int), callEnv 10 11 0)], 0 ≤ c.1 ∧ c.1 < NUM_REGIONS) ∧
    (2 : Nat) ≠ 0 ∧ 2 < NUM_REGIONS ∧
    ∃ s0, PROFILER_INIT masterEnv globals0 = some s0 ∧
      ∃ s, runPcontrol [((1 : Int), callEnv 10 11 0), (((2 : Nat) : Int), callEnv 15 16 5)] s0 =
          some s ∧
        s.curset = 2 ∧
        ∃ res, PROFILER_FINALIZE sampleFin s = some res ∧ res.state = s ∧
          res.sent[1]? = some (2, sendCounters s 2, (s.values 2).time) ∧
          (s.values 2).time = -16 ∧ ∀ x ∈ sendCounters s 2, x = 0 := by
  have hids : ∀ c ∈ [((1 : Int), callEnv 10 11 0)], 0 ≤ c.1 ∧ c.1 < NUM_REGIONS := by
    simp [NUM_REGIONS]
  refine ⟨rfl, hids, by decide, by decide, ?_⟩
  obtain ⟨s0, h1, _, hret, hall⟩ :=
    C9_unterminated_region masterEnv globals0 [((1 : Int), callEnv 10 11 0)] 2
      (callEnv 15 16 5) sampleFin rfl hids (by decide) (by decide)
  obtain ⟨s, hs⟩ := hret (by simp [callEnv])
  obtain ⟨hcur, _, res, hres, hstate, hsent, htime, _, hzero⟩ := hall s hs
  refine ⟨s0, h1, s, hs, hcur, res, hres, hstate, hsent, ?_, ?_⟩
  · rw [htime]
    norm_num [dwellTime, closedDwells, openAfter, durationIn, callEnv, List.filter]
  · exact hzero (by simp)

end BGQNCL
